import Mathlib

/-!
Verification of the brainfuck JIT compiler (`src/main.rs`, `src/runlength.rs`).

The development shallowly embeds the Rust sources:
* `runLength` embeds `RunLength::next` from `runlength.rs`;
* `Inst`, `buildInsts`, `Brainfuck.new` embed the instruction enum and
  `Brainfuck::new` from `main.rs`;
* `Cursor`, the `emit_*` functions and `compile` embed the two-pass code
  generator from `main.rs`, with `io::Cursor<Vec<u8>>` modelled as a byte
  list together with a write position.
Machine bytes are modelled as natural numbers below 256.
-/

/-! ## Run-length iterator (`src/runlength.rs`) -/

/-- State-passing form of `RunLength::next`: `x` is the element taken by
`self.iter.next()` and `n` the count accumulated so far; the `while peek`
loop advances as long as the next element equals `x`. -/
def runLengthAux {α : Type} [DecidableEq α] (x : α) (n : Nat) : List α → List (Nat × α)
  | [] => [(n, x)]
  | y :: ys => if y = x then runLengthAux x (n + 1) ys else (n, x) :: runLengthAux y 1 ys

/-- The sequence of `(count, element)` pairs produced by draining the
`RunLength` iterator over the given input. -/
def runLength {α : Type} [DecidableEq α] : List α → List (Nat × α)
  | [] => []
  | x :: xs => runLengthAux x 1 xs

/-! ## Instructions and the program builder (`Brainfuck::new`) -/

/-- The `Inst` enum of `main.rs`. -/
inductive Inst where
  | IncPtr (a : Nat)
  | DecPtr (a : Nat)
  | IncVal (a : Nat)
  | DecVal (a : Nat)
  | PrintCell
  | ReadChar
  | JmpFwd (n : Nat)
  | JmpBack (n : Nat)
deriving DecidableEq, Repr

/-- The `CompileError` enum of `main.rs`; `UnbalancedBrackets` is its only
variant. -/
inductive CompileError where
  | UnbalancedBrackets
deriving DecidableEq, Repr

/-- The character filter in `Brainfuck::new`: keep exactly the eight
recognized symbols. -/
def isBfChar (c : Char) : Bool :=
  c = '>' || c = '<' || c = '+' || c = '-' || c = '.' || c = ',' || c = '[' || c = ']'

/-- The loop state of `Brainfuck::new`: the instruction vector and the
stack of pending open-bracket indices (most recent first). -/
structure BuildState where
  insts : List Inst
  stack : List Nat
deriving DecidableEq, Repr

/-- One iteration of the inner loop for a run of open brackets:
`stack.push(insts.len()); insts.push(JmpFwd(0))`. -/
def openStep (st : BuildState) : BuildState :=
  { insts := st.insts ++ [Inst.JmpFwd 0], stack := st.insts.length :: st.stack }

/-- One iteration of the inner loop for a run of close brackets: pop the
stack (failing with `UnbalancedBrackets` when it is empty), overwrite the
popped `JmpFwd` with the index of the instruction about to be pushed, and
push the matching `JmpBack`. -/
def closeStep (st : BuildState) : Option BuildState :=
  match st.stack with
  | [] => none
  | n :: rest =>
      some { insts := st.insts.set n (Inst.JmpFwd st.insts.length) ++ [Inst.JmpBack n],
             stack := rest }

/-- `openStep` iterated `l` times (the `for _ in 0..length` loop). -/
def repOpen : Nat → BuildState → BuildState
  | 0, st => st
  | l + 1, st => repOpen l (openStep st)

/-- `closeStep` iterated `l` times, propagating the early return. -/
def repClose : Nat → BuildState → Option BuildState
  | 0, st => some st
  | l + 1, st =>
      match closeStep st with
      | none => none
      | some st1 => repClose l st1

/-- The body of the `for (length, c) in program.chars().run_length()` loop
of `Brainfuck::new`.  The final catch-all arm is `unreachable!` in the
source: it is never hit because the input was filtered to the eight
recognized symbols. -/
def pairStep (st : BuildState) : Nat × Char → Option BuildState
  | (l, c) =>
    if c = '>' then some { st with insts := st.insts ++ [Inst.IncPtr l] }
    else if c = '<' then some { st with insts := st.insts ++ [Inst.DecPtr l] }
    else if c = '+' then some { st with insts := st.insts ++ [Inst.IncVal l] }
    else if c = '-' then some { st with insts := st.insts ++ [Inst.DecVal l] }
    else if c = '.' then some { st with insts := st.insts ++ List.replicate l Inst.PrintCell }
    else if c = ',' then some { st with insts := st.insts ++ List.replicate l Inst.ReadChar }
    else if c = '[' then some (repOpen l st)
    else if c = ']' then repClose l st
    else some st

/-- The instruction-building part of `Brainfuck::new`: filter the source,
run-length collapse it, process every pair, and reject a non-empty final
stack. -/
def buildInsts (program : List Char) : Except CompileError (List Inst) :=
  match (runLength (program.filter isBfChar)).foldlM pairStep ⟨[], []⟩ with
  | none => .error .UnbalancedBrackets
  | some st =>
      if st.stack.isEmpty then .ok st.insts else .error .UnbalancedBrackets

/-! ## The byte cursor (`io::Cursor<Vec<u8>>`) -/

/-- Overwrite `bytes.length` bytes of `data` starting at `pos`, extending
(and zero-padding, as `io::Cursor` does) when the write reaches past the
end. -/
def writeAt (data : List Nat) (pos : Nat) (bytes : List Nat) : List Nat :=
  let padded := data ++ List.replicate (pos - data.length) 0
  padded.take pos ++ bytes ++ padded.drop (pos + bytes.length)

/-- A `Cursor<Vec<u8>>`: the backing byte vector and the current position. -/
structure Cursor where
  data : List Nat
  pos : Nat
deriving DecidableEq, Repr

/-- `Write::write` on a cursor: overwrite at the current position and
advance it. -/
def Cursor.write (c : Cursor) (bytes : List Nat) : Cursor :=
  { data := writeAt c.data c.pos bytes, pos := c.pos + bytes.length }

/-- The four little-endian bytes of `n` truncated to 32 bits. -/
def le32 (n : Nat) : List Nat :=
  [n % 256, n / 256 % 256, n / 65536 % 256, n / 16777216 % 256]

/-- The four little-endian bytes of the signed 32-bit value `n`
(two's complement, i.e. the bytes of `n` modulo `2^32`). -/
def le32i (n : Int) : List Nat :=
  le32 (n.emod 4294967296).toNat

/-! ## The emit helpers of `compile` -/

/-- `emit_inc`: `inc rsi` for amount 1, else `add rsi, imm32` where the
immediate is `amount as u32` (truncation modulo `2^32`). -/
def emit_inc (mem : Cursor) (amount : Nat) : Cursor :=
  if amount = 1 then mem.write [0x48, 0xff, 0xc6]
  else (mem.write [0x48, 0x81, 0xc6]).write (le32 (amount % 4294967296))

/-- `emit_dec`: `dec rsi` for amount 1, else `sub rsi, imm32`. -/
def emit_dec (mem : Cursor) (amount : Nat) : Cursor :=
  if amount = 1 then mem.write [0x48, 0xff, 0xce]
  else (mem.write [0x48, 0x81, 0xee]).write (le32 (amount % 4294967296))

/-- `emit_inc_val`: `inc byte [rsi]` for amount 1, else `add byte [rsi], imm8`
where the immediate is `(amount & 0xff) as u8`, i.e. `amount % 256`. -/
def emit_inc_val (mem : Cursor) (amount : Nat) : Cursor :=
  if amount = 1 then mem.write [0xfe, 0x06]
  else mem.write [0x80, 0x06, amount % 256]

/-- `emit_dec_val`: `dec byte [rsi]` for amount 1, else `sub byte [rsi], imm8`. -/
def emit_dec_val (mem : Cursor) (amount : Nat) : Cursor :=
  if amount = 1 then mem.write [0xfe, 0x0e]
  else mem.write [0x80, 0x2e, amount % 256]

/-- `emit_jmp_fwd`: `cmp byte [rsi], 0` then `je rel32` with displacement
bytes `(offset as i32 - 9)` little-endian. -/
def emit_jmp_fwd (mem : Cursor) (offset : Nat) : Cursor :=
  (mem.write [0x80, 0x3e, 0x00, 0x0f, 0x84]).write (le32i ((offset : Int) - 9))

/-- `emit_jmp_back`: `cmp byte [rsi], 0` then `jne rel32` with displacement
bytes `(offset as i32 - 9)` little-endian, `offset` being signed. -/
def emit_jmp_back (mem : Cursor) (offset : Int) : Cursor :=
  (mem.write [0x80, 0x3e, 0x00, 0x0f, 0x85]).write (le32i (offset - 9))

/-- `emit_print`: the fixed 17-byte `write(1, rsi, 1)` syscall sequence. -/
def emit_print (mem : Cursor) : Cursor :=
  mem.write [0xb8, 0x01, 0x00, 0x00, 0x00,
             0xbf, 0x01, 0x00, 0x00, 0x00,
             0xba, 0x01, 0x00, 0x00, 0x00,
             0x0f, 0x05]

/-- `emit_read`: the fixed 13-byte `read(0, rsi, 1)` syscall sequence. -/
def emit_read (mem : Cursor) : Cursor :=
  mem.write [0x48, 0x31, 0xc0,
             0x48, 0x31, 0xff,
             0xba, 0x01, 0x00, 0x00, 0x00,
             0x0f, 0x05]

/-- `emit_ret`: the single `ret` byte. -/
def emit_ret (mem : Cursor) : Cursor :=
  mem.write [0xc3]

/-! ## The two passes of `compile` -/

/-- The state of the first pass: the cursor, `addr_mapping` (an association
list standing in for the `HashMap`, most recent insertion first) and
`fwd_jumps`. -/
structure P1 where
  mem : Cursor
  addr : List (Nat × Nat)
  fwd : List (Nat × Nat)
deriving DecidableEq, Repr

/-- One iteration of pass one on the pair `(i, inst)` from
`insts.iter().enumerate()`.  In the `JmpBack` arm the source indexes the
map with `addr_mapping[&n]`, which panics when `n` is absent; the model
defaults the lookup to 0, an arm that is unreachable on the instruction
sequences `Brainfuck::new` produces. -/
def p1step (s : P1) (p : Nat × Inst) : P1 :=
  match p.2 with
  | .IncPtr a => { s with mem := emit_inc s.mem a }
  | .DecPtr a => { s with mem := emit_dec s.mem a }
  | .IncVal a => { s with mem := emit_inc_val s.mem a }
  | .DecVal a => { s with mem := emit_dec_val s.mem a }
  | .PrintCell => { s with mem := emit_print s.mem }
  | .ReadChar => { s with mem := emit_read s.mem }
  | .JmpFwd n =>
      let mem1 := emit_jmp_fwd s.mem 0x41414141
      { mem := mem1, addr := (p.1, mem1.pos) :: s.addr, fwd := s.fwd ++ [(s.mem.pos, n)] }
  | .JmpBack n =>
      let target := ((s.addr.lookup n).getD 0 : Int)
      let distance : Int := (s.mem.pos : Int) - target
      let mem1 := emit_jmp_back s.mem (-distance)
      { s with mem := mem1, addr := (p.1, mem1.pos) :: s.addr }

/-- Pass one over a whole instruction sequence, starting from an empty
cursor, empty map and empty forward-jump list. -/
def p1run (insts : List Inst) : P1 :=
  insts.enum.foldl p1step ⟨⟨[], 0⟩, [], []⟩

/-- One iteration of pass two: `set_position(offset)`, compute
`addr_mapping[&n] - offset` (usize arithmetic) and re-emit the forward
jump over the placeholder. -/
def p2step (addr : List (Nat × Nat)) (mem : Cursor) (p : Nat × Nat) : Cursor :=
  let mem1 : Cursor := { mem with pos := p.1 }
  let distance := ((addr.lookup p.2).getD 0) - p.1
  emit_jmp_fwd mem1 distance

/-- Pass two: patch every recorded forward jump. -/
def pass2 (addr : List (Nat × Nat)) (mem : Cursor) (fwd : List (Nat × Nat)) : Cursor :=
  fwd.foldl (p2step addr) mem

/-- The `compile` function of `main.rs`: pass one, pass two, then seek to
the end and append the `ret` byte. -/
def compile (insts : List Inst) : List Nat :=
  let s := p1run insts
  let mem := pass2 s.addr s.mem s.fwd
  let mem1 : Cursor := { mem with pos := mem.data.length }
  (emit_ret mem1).data

/-- The `Brainfuck` struct of `main.rs` (without the process-level `run`,
`dump` and `dump_jit` operations, which only read these fields). -/
structure Brainfuck where
  insts : List Inst
  jit_code : List Nat
  tape_size : Nat
deriving DecidableEq, Repr

/-- `Brainfuck::new`: build the instruction list, compile it, and start
with the default tape size of 30000. -/
def Brainfuck.new (program : List Char) : Except CompileError Brainfuck :=
  match buildInsts program with
  | .error e => .error e
  | .ok insts => .ok { insts := insts, jit_code := compile insts, tape_size := 30000 }

/-- `Brainfuck::tape_size`. -/
def Brainfuck.tapeSize (bf : Brainfuck) : Nat := bf.tape_size

/-- `Brainfuck::set_tape_size`. -/
def Brainfuck.setTapeSize (bf : Brainfuck) (size : Nat) : Brainfuck :=
  { bf with tape_size := size }

/-- Sanity check: the two-instruction program built from `[]`. -/
theorem buildInsts_brackets_eval :
    buildInsts "[]".toList = .ok [Inst.JmpFwd 1, Inst.JmpBack 0] := by rfl

/-- Sanity check: the bytes compiled from the `[]` program. -/
theorem compile_brackets_eval : compile [Inst.JmpFwd 1, Inst.JmpBack 0] =
    [0x80, 0x3e, 0x00, 0x0f, 0x84, 9, 0, 0, 0,
     0x80, 0x3e, 0x00, 0x0f, 0x85, 0xf7, 0xff, 0xff, 0xff,
     0xc3] := by decide

/-! ## Properties of the run-length iterator -/

theorem runLengthAux_join {α : Type} [DecidableEq α] (xs : List α) : ∀ (x : α) (n : Nat),
    ((runLengthAux x n xs).map (fun p => List.replicate p.1 p.2)).flatten
      = List.replicate n x ++ xs := by
  induction xs with
  | nil => intro x n; simp [runLengthAux]
  | cons y ys ih =>
      intro x n
      by_cases h : y = x
      · subst h
        rw [runLengthAux, if_pos rfl, ih]
        rw [List.replicate_succ']
        simp
      · rw [runLengthAux, if_neg h]
        simp [ih]

theorem runLengthAux_pos {α : Type} [DecidableEq α] (xs : List α) : ∀ (x : α) (n : Nat),
    0 < n → ∀ p ∈ runLengthAux x n xs, 0 < p.1 := by
  induction xs with
  | nil =>
      intro x n hn p hp
      simp [runLengthAux] at hp
      subst hp
      exact hn
  | cons y ys ih =>
      intro x n hn p hp
      by_cases h : y = x
      · subst h
        rw [runLengthAux, if_pos rfl] at hp
        exact ih y (n + 1) (Nat.succ_pos n) p hp
      · rw [runLengthAux, if_neg h, List.mem_cons] at hp
        rcases hp with hp | hp
        · subst hp; exact hn
        · exact ih y 1 Nat.one_pos p hp

theorem runLengthAux_head {α : Type} [DecidableEq α] (xs : List α) : ∀ (x : α) (n : Nat),
    ∃ m t, runLengthAux x n xs = (m, x) :: t := by
  induction xs with
  | nil => intro x n; exact ⟨n, [], rfl⟩
  | cons y ys ih =>
      intro x n
      by_cases h : y = x
      · subst h
        rw [runLengthAux, if_pos rfl]
        exact ih y (n + 1)
      · rw [runLengthAux, if_neg h]
        exact ⟨n, runLengthAux y 1 ys, rfl⟩

theorem runLengthAux_chain {α : Type} [DecidableEq α] (xs : List α) : ∀ (x : α) (n : Nat),
    List.Chain' (fun p q : Nat × α => p.2 ≠ q.2) (runLengthAux x n xs) := by
  induction xs with
  | nil => intro x n; simp [runLengthAux]
  | cons y ys ih =>
      intro x n
      by_cases h : y = x
      · subst h
        rw [runLengthAux, if_pos rfl]
        exact ih y (n + 1)
      · rw [runLengthAux, if_neg h]
        rw [List.chain'_cons']
        refine ⟨?_, ih y 1⟩
        intro b hb
        obtain ⟨m, t, hmt⟩ := runLengthAux_head ys y 1
        rw [hmt] at hb
        simp at hb
        rw [← hb]
        intro hxy
        exact h hxy.symm

/-- C7: the run-length iterator yields, for every finite input, the list of
(count, element) pairs of the maximal runs of consecutive equal elements
(characterized by: concatenating `count` copies of each element restores
the input, every count is positive, and adjacent pairs carry distinct
elements), and yields zero pairs on empty input. -/
theorem C7_runLength_spec {α : Type} [DecidableEq α] (l : List α) :
    runLength ([] : List α) = [] ∧
    ((runLength l).map (fun p => List.replicate p.1 p.2)).flatten = l ∧
    (∀ p ∈ runLength l, 0 < p.1) ∧
    List.Chain' (fun p q : Nat × α => p.2 ≠ q.2) (runLength l) := by
  refine ⟨rfl, ?_, ?_, ?_⟩
  · cases l with
    | nil => rfl
    | cons x xs => rw [runLength, runLengthAux_join]; rfl
  · cases l with
    | nil => intro p hp; simp [runLength] at hp
    | cons x xs => exact runLengthAux_pos xs x 1 Nat.one_pos
  · cases l with
    | nil => simp [runLength]
    | cons x xs => exact runLengthAux_chain xs x 1

/-! ## Cursor write lemmas -/

theorem writeAt_writeAt (d : List Nat) (p : Nat) (b1 b2 : List Nat) :
    writeAt (writeAt d p b1) (p + b1.length) b2 = writeAt d p (b1 ++ b2) := by
  have hplen : p ≤ (d ++ List.replicate (p - d.length) 0).length := by
    simp; omega
  simp only [writeAt]
  set padded := d ++ List.replicate (p - d.length) 0 with hpad
  set A := padded.take p with hA
  have hAlen : A.length = p := by
    have := List.length_take p padded
    rw [hA, this]; omega
  set B := padded.drop (p + b1.length) with hB
  have hABlen : (A ++ b1).length = p + b1.length := by
    rw [List.length_append, hAlen]
  have hlen1 : p + b1.length ≤ (A ++ b1 ++ B).length := by
    simp only [List.length_append]
    omega
  have hrep : List.replicate (p + b1.length - (A ++ b1 ++ B).length) (0 : Nat) = [] := by
    have h0 : p + b1.length - (A ++ b1 ++ B).length = 0 := by omega
    rw [h0, List.replicate_zero]
  rw [hrep, List.append_nil]
  have htake : (A ++ b1 ++ B).take (p + b1.length) = A ++ b1 :=
    List.take_left' hABlen
  have hdrop : (A ++ b1 ++ B).drop (p + b1.length + b2.length) = B.drop b2.length := by
    have h2 := @List.drop_append _ (A ++ b1) B b2.length
    rw [hABlen] at h2
    exact h2
  rw [htake, hdrop]
  have hBdrop : B.drop b2.length = padded.drop (p + (b1 ++ b2).length) := by
    rw [hB, List.drop_drop]
    congr 1
    simp only [List.length_append]
    omega
  rw [hBdrop]
  simp [List.append_assoc]

/-- Two consecutive cursor writes are one write of the concatenation. -/
theorem Cursor.write_write (c : Cursor) (b1 b2 : List Nat) :
    (c.write b1).write b2 = c.write (b1 ++ b2) := by
  simp only [Cursor.write, writeAt_writeAt, List.length_append, Nat.add_assoc]

/-- Writing at the end of the buffer appends. -/
theorem Cursor.write_append (c : Cursor) (b : List Nat) (h : c.pos = c.data.length) :
    c.write b = ⟨c.data ++ b, c.data.length + b.length⟩ := by
  simp only [Cursor.write, writeAt, h]
  congr 1
  simp

/-! ## C6, C8, C9, C10 -/

/-- C6: MovePointer/AdjustCell instructions with amount 1 are emitted with
the short fixed-width inc/dec encoding; with amount greater than 1 the
long-form encoding is emitted, whose immediate is the 32-bit truncation of
the amount for pointer moves and the single byte `amount % 256` for cell
adjustments. -/
theorem C6_move_adjust_encoding (mem : Cursor) (a : Nat) :
    (a = 1 →
      emit_inc mem a = mem.write [0x48, 0xff, 0xc6] ∧
      emit_dec mem a = mem.write [0x48, 0xff, 0xce] ∧
      emit_inc_val mem a = mem.write [0xfe, 0x06] ∧
      emit_dec_val mem a = mem.write [0xfe, 0x0e]) ∧
    (1 < a →
      emit_inc mem a = mem.write ([0x48, 0x81, 0xc6] ++ le32 (a % 4294967296)) ∧
      emit_dec mem a = mem.write ([0x48, 0x81, 0xee] ++ le32 (a % 4294967296)) ∧
      (le32 (a % 4294967296)).length = 4 ∧
      emit_inc_val mem a = mem.write [0x80, 0x06, a % 256] ∧
      emit_dec_val mem a = mem.write [0x80, 0x2e, a % 256]) := by
  constructor
  · intro h1
    subst h1
    exact ⟨by simp [emit_inc], by simp [emit_dec], by simp [emit_inc_val], by simp [emit_dec_val]⟩
  · intro h2
    have hne : ¬a = 1 := by omega
    refine ⟨?_, ?_, rfl, ?_, ?_⟩
    · rw [emit_inc, if_neg hne, Cursor.write_write]
    · rw [emit_dec, if_neg hne, Cursor.write_write]
    · rw [emit_inc_val, if_neg hne]
    · rw [emit_dec_val, if_neg hne]

theorem C6_move_adjust_encoding_witness :
    (emit_inc ⟨[], 0⟩ 1 = Cursor.write ⟨[], 0⟩ [0x48, 0xff, 0xc6] ∧
      emit_dec ⟨[], 0⟩ 1 = Cursor.write ⟨[], 0⟩ [0x48, 0xff, 0xce] ∧
      emit_inc_val ⟨[], 0⟩ 1 = Cursor.write ⟨[], 0⟩ [0xfe, 0x06] ∧
      emit_dec_val ⟨[], 0⟩ 1 = Cursor.write ⟨[], 0⟩ [0xfe, 0x0e]) ∧
    (emit_inc ⟨[], 0⟩ 300 = Cursor.write ⟨[], 0⟩ ([0x48, 0x81, 0xc6] ++ le32 (300 % 4294967296)) ∧
      emit_dec ⟨[], 0⟩ 300 = Cursor.write ⟨[], 0⟩ ([0x48, 0x81, 0xee] ++ le32 (300 % 4294967296)) ∧
      (le32 (300 % 4294967296)).length = 4 ∧
      emit_inc_val ⟨[], 0⟩ 300 = Cursor.write ⟨[], 0⟩ [0x80, 0x06, 300 % 256] ∧
      emit_dec_val ⟨[], 0⟩ 300 = Cursor.write ⟨[], 0⟩ [0x80, 0x2e, 300 % 256]) :=
  ⟨(C6_move_adjust_encoding ⟨[], 0⟩ 1).1 rfl,
   (C6_move_adjust_encoding ⟨[], 0⟩ 300).2 (by omega)⟩

/-- C8: code generation is deterministic — equal instruction sequences
always compile to byte-identical code buffers. -/
theorem C8_compile_deterministic (i1 i2 : List Inst) (h : i1 = i2) :
    compile i1 = compile i2 := by
  rw [h]

theorem C8_compile_deterministic_witness :
    compile [Inst.IncVal 3, Inst.JmpFwd 2, Inst.JmpBack 1]
      = compile [Inst.IncVal 3, Inst.JmpFwd 2, Inst.JmpBack 1] :=
  C8_compile_deterministic _ _ rfl

/-- C9: a newly constructed program carries the default tape size 30000,
and after setting the tape size to any positive `n` the getter returns
exactly `n`. -/
theorem C9_tape_size (src : List Char) (bf bf2 : Brainfuck) (n : Nat) :
    (Brainfuck.new src = .ok bf → bf.tapeSize = 30000) ∧
    (0 < n → (bf2.setTapeSize n).tapeSize = n) := by
  constructor
  · intro h
    unfold Brainfuck.new at h
    cases hb : buildInsts src with
    | error e => rw [hb] at h; cases h
    | ok insts => rw [hb] at h; cases h; rfl
  · intro _
    rfl

theorem C9_tape_size_witness :
    (Brainfuck.tapeSize ⟨[Inst.IncVal 1], [0xfe, 0x06, 0xc3], 30000⟩ = 30000) ∧
    (Brainfuck.tapeSize (Brainfuck.setTapeSize ⟨[], [0xc3], 30000⟩ 5) = 5) :=
  ⟨(C9_tape_size ['+'] ⟨[Inst.IncVal 1], [0xfe, 0x06, 0xc3], 30000⟩ ⟨[], [0xc3], 30000⟩ 5).1 rfl,
   (C9_tape_size ['+'] ⟨[Inst.IncVal 1], [0xfe, 0x06, 0xc3], 30000⟩ ⟨[], [0xc3], 30000⟩ 5).2
     (by omega)⟩

/-- C10: a source with no recognized symbol (in particular the empty
source) builds successfully into the empty instruction sequence, whose
generated code is the single return byte 0xc3. -/
theorem C10_empty_source (src : List Char) (h : src.filter isBfChar = []) :
    Brainfuck.new src = .ok { insts := [], jit_code := [0xc3], tape_size := 30000 } := by
  unfold Brainfuck.new buildInsts
  rw [h]
  rfl

theorem C10_empty_source_witness :
    Brainfuck.new ['a', 'b', ' '] = .ok { insts := [], jit_code := [0xc3], tape_size := 30000 } :=
  C10_empty_source ['a', 'b', ' '] (by decide)

/-! ## C2: the bracket-balance characterization of UnbalancedBrackets -/

/-- Modelled from the spec: the balance condition on the filtered symbol
stream.  The counter is the number of pending opens; `none` marks a
close-bracket met with no pending open, and a final `some k` with `k ≠ 0`
marks opens left unmatched at end of input. -/
def brFold : List Char → Nat → Option Nat
  | [], k => some k
  | c :: cs, k =>
      if c = '[' then brFold cs (k + 1)
      else if c = ']' then (if k = 0 then none else brFold cs (k - 1))
      else brFold cs k

/-- The balance condition accumulated per run-length pair. -/
def brFoldPairs : List (Nat × Char) → Nat → Option Nat
  | [], k => some k
  | (l, c) :: ps, k =>
      if c = '[' then brFoldPairs ps (k + l)
      else if c = ']' then (if l ≤ k then brFoldPairs ps (k - l) else none)
      else brFoldPairs ps k

theorem brFold_replicate (c : Char) (cs : List Char) (l : Nat) : ∀ k : Nat,
    brFold (List.replicate l c ++ cs) k =
      if c = '[' then brFold cs (k + l)
      else if c = ']' then (if l ≤ k then brFold cs (k - l) else none)
      else brFold cs k := by
  induction l with
  | zero =>
      intro k
      by_cases h1 : c = '['
      · simp [h1]
      · by_cases h2 : c = ']'
        · simp [h1, h2]
        · simp [h1, h2]
  | succ l ih =>
      intro k
      rw [List.replicate_succ, List.cons_append, brFold]
      by_cases h1 : c = '['
      · rw [if_pos h1, ih, if_pos h1, if_pos h1, show k + 1 + l = k + (l + 1) by omega]
      · by_cases h2 : c = ']'
        · rw [if_neg h1, if_pos h2]
          by_cases hk : k = 0
          · rw [if_pos hk, if_neg h1, if_pos h2, if_neg (show ¬l + 1 ≤ k by omega)]
          · rw [if_neg hk, ih, if_neg h1, if_pos h2]
            by_cases hlk : l + 1 ≤ k
            · rw [if_pos (show l ≤ k - 1 by omega), if_neg h1, if_pos h2, if_pos hlk,
                show k - 1 - l = k - (l + 1) by omega]
            · rw [if_neg (show ¬l ≤ k - 1 by omega), if_neg h1, if_pos h2, if_neg hlk]
        · rw [if_neg h1, if_neg h2, ih, if_neg h1, if_neg h2, if_neg h1, if_neg h2]

theorem brFoldPairs_flatten (ps : List (Nat × Char)) : ∀ k : Nat,
    brFoldPairs ps k = brFold ((ps.map fun p => List.replicate p.1 p.2).flatten) k := by
  induction ps with
  | nil => intro k; rfl
  | cons p ps ih =>
      intro k
      obtain ⟨l, c⟩ := p
      rw [List.map_cons, List.flatten_cons, brFold_replicate]
      by_cases h1 : c = '['
      · rw [brFoldPairs, if_pos h1, if_pos h1, ih]
      · by_cases h2 : c = ']'
        · rw [brFoldPairs, if_neg h1, if_pos h2, if_neg h1, if_pos h2]
          by_cases hlk : l ≤ k
          · rw [if_pos hlk, if_pos hlk, ih]
          · rw [if_neg hlk, if_neg hlk]
        · rw [brFoldPairs, if_neg h1, if_neg h2, if_neg h1, if_neg h2, ih]

/-- Over the run-length pairs of a stream, the pairwise balance condition
agrees with the symbol-wise one. -/
theorem brFoldPairs_runLength {l : List Char} (k : Nat) :
    brFoldPairs (runLength l) k = brFold l k := by
  rw [brFoldPairs_flatten]
  congr 1
  exact (C7_runLength_spec l).2.1

theorem repOpen_stack_length (l : Nat) : ∀ st : BuildState,
    (repOpen l st).stack.length = l + st.stack.length := by
  induction l with
  | zero =>
      intro st
      simp [repOpen]
  | succ l ih =>
      intro st
      rw [repOpen, ih]
      simp only [openStep, List.length_cons]
      omega

theorem repClose_stack (l : Nat) : ∀ st : BuildState,
    (l ≤ st.stack.length →
      ∃ st1, repClose l st = some st1 ∧ st1.stack = st.stack.drop l) ∧
    (st.stack.length < l → repClose l st = none) := by
  induction l with
  | zero =>
      intro st
      exact ⟨fun _ => ⟨st, rfl, rfl⟩, fun h => absurd h (by omega)⟩
  | succ l ih =>
      intro st
      cases hst : st.stack with
      | nil =>
          constructor
          · intro hle
            simp at hle
          · intro _
            rw [repClose]
            unfold closeStep
            rw [hst]
      | cons n rest =>
          have hstep : closeStep st =
              some ⟨st.insts.set n (Inst.JmpFwd st.insts.length) ++ [Inst.JmpBack n], rest⟩ := by
            unfold closeStep
            rw [hst]
          constructor
          · intro hle
            simp at hle
            obtain ⟨st1, h1, h2⟩ :=
              (ih ⟨st.insts.set n (Inst.JmpFwd st.insts.length) ++ [Inst.JmpBack n], rest⟩).1
                (by simpa using hle)
            refine ⟨st1, ?_, ?_⟩
            · rw [repClose, hstep]
              exact h1
            · rw [h2]
              rfl
          · intro hlt
            simp at hlt
            rw [repClose, hstep]
            exact (ih _).2 (by simpa using hlt)

theorem pairStep_nonbracket (st : BuildState) (l : Nat) (c : Char)
    (h1 : c ≠ '[') (h2 : c ≠ ']') :
    ∃ st1, pairStep st (l, c) = some st1 ∧ st1.stack = st.stack := by
  simp only [pairStep]
  by_cases ha : c = '>'
  · rw [if_pos ha]
    exact ⟨_, rfl, rfl⟩
  · rw [if_neg ha]
    by_cases hb : c = '<'
    · rw [if_pos hb]
      exact ⟨_, rfl, rfl⟩
    · rw [if_neg hb]
      by_cases hc : c = '+'
      · rw [if_pos hc]
        exact ⟨_, rfl, rfl⟩
      · rw [if_neg hc]
        by_cases hd : c = '-'
        · rw [if_pos hd]
          exact ⟨_, rfl, rfl⟩
        · rw [if_neg hd]
          by_cases he : c = '.'
          · rw [if_pos he]
            exact ⟨_, rfl, rfl⟩
          · rw [if_neg he]
            by_cases hf : c = ','
            · rw [if_pos hf]
              exact ⟨_, rfl, rfl⟩
            · rw [if_neg hf, if_neg h1, if_neg h2]
              exact ⟨_, rfl, rfl⟩

theorem pairStep_open (st : BuildState) (l : Nat) :
    pairStep st (l, '[') = some (repOpen l st) := rfl

theorem pairStep_close (st : BuildState) (l : Nat) :
    pairStep st (l, ']') = repClose l st := rfl

theorem foldlM_pairStep_stack (pairs : List (Nat × Char)) : ∀ st : BuildState,
    (pairs.foldlM pairStep st = none ↔ brFoldPairs pairs st.stack.length = none) ∧
    (∀ st1, pairs.foldlM pairStep st = some st1 →
      brFoldPairs pairs st.stack.length = some st1.stack.length) := by
  induction pairs with
  | nil =>
      intro st
      constructor
      · simp [brFoldPairs]
      · intro st1 h
        simp at h
        subst h
        rfl
  | cons p ps ih =>
      intro st
      obtain ⟨l, c⟩ := p
      by_cases h1 : c = '['
      · subst h1
        rw [List.foldlM_cons, pairStep_open]
        have hred : (some (repOpen l st) >>= ps.foldlM pairStep)
            = ps.foldlM pairStep (repOpen l st) := rfl
        rw [hred]
        have hbr : brFoldPairs ((l, '[') :: ps) st.stack.length
            = brFoldPairs ps (st.stack.length + l) := by
          rw [brFoldPairs, if_pos rfl]
        rw [hbr]
        have hlen : st.stack.length + l = (repOpen l st).stack.length := by
          rw [repOpen_stack_length]
          omega
        rw [hlen]
        exact ih (repOpen l st)
      · by_cases h2 : c = ']'
        · subst h2
          rw [List.foldlM_cons, pairStep_close]
          have hbr : brFoldPairs ((l, ']') :: ps) st.stack.length
              = if l ≤ st.stack.length then brFoldPairs ps (st.stack.length - l) else none := by
            rw [brFoldPairs, if_neg (by decide), if_pos rfl]
          rw [hbr]
          by_cases hle : l ≤ st.stack.length
          · obtain ⟨st1, hc1, hc2⟩ := (repClose_stack l st).1 hle
            rw [hc1, if_pos hle]
            have hred : (some st1 >>= ps.foldlM pairStep) = ps.foldlM pairStep st1 := rfl
            rw [hred]
            have hlen : st.stack.length - l = st1.stack.length := by
              rw [hc2, List.length_drop]
            rw [hlen]
            exact ih st1
          · rw [(repClose_stack l st).2 (by omega), if_neg hle]
            have hred : ((none : Option BuildState) >>= ps.foldlM pairStep)
                = (none : Option BuildState) := rfl
            rw [hred]
            constructor
            · simp
            · intro st1 h
              exact Option.noConfusion h
        · obtain ⟨st1, hps, hstk⟩ := pairStep_nonbracket st l c h1 h2
          rw [List.foldlM_cons, hps]
          have hred : (some st1 >>= ps.foldlM pairStep) = ps.foldlM pairStep st1 := rfl
          rw [hred]
          have hbr : brFoldPairs ((l, c) :: ps) st.stack.length
              = brFoldPairs ps st.stack.length := by
            rw [brFoldPairs, if_neg h1, if_neg h2]
          rw [hbr, show st.stack.length = st1.stack.length by rw [hstk]]
          exact ih st1

/-- C2: construction fails with UnbalancedBrackets exactly when the
filtered symbol stream is bracket-unbalanced (a close-bracket met with no
pending open, or opens left at end of input); UnbalancedBrackets is the
only error ever returned; and the six concrete sources from the spec
behave as stated. -/
theorem C2_unbalanced_brackets (src : List Char) :
    (buildInsts src = .error CompileError.UnbalancedBrackets ↔
      brFold (src.filter isBfChar) 0 ≠ some 0) ∧
    (∀ e, buildInsts src = .error e → e = CompileError.UnbalancedBrackets) ∧
    buildInsts [']'] = .error CompileError.UnbalancedBrackets ∧
    buildInsts ['['] = .error CompileError.UnbalancedBrackets ∧
    buildInsts ['[', '[', ']'] = .error CompileError.UnbalancedBrackets ∧
    buildInsts [']', '[', ' '] = .error CompileError.UnbalancedBrackets ∧
    buildInsts ['[', ']'] = .ok [Inst.JmpFwd 1, Inst.JmpBack 0] ∧
    buildInsts ['[', '[', ']', ']'] =
      .ok [Inst.JmpFwd 3, Inst.JmpFwd 2, Inst.JmpBack 1, Inst.JmpBack 0] := by
  refine ⟨?_, ?_, by rfl, by rfl, by rfl, by rfl, by rfl, by rfl⟩
  · rw [← brFoldPairs_runLength]
    cases hf : (runLength (src.filter isBfChar)).foldlM pairStep ⟨[], []⟩ with
    | none =>
        have hred : buildInsts src = .error CompileError.UnbalancedBrackets := by
          unfold buildInsts
          rw [hf]
        have h0 : brFoldPairs (runLength (src.filter isBfChar)) 0 = none :=
          (foldlM_pairStep_stack _ ⟨[], []⟩).1.mp hf
        rw [hred, h0]
        constructor
        · intro _
          simp
        · intro _
          rfl
    | some st =>
        have hred : buildInsts src
            = if st.stack.isEmpty then Except.ok st.insts
              else Except.error CompileError.UnbalancedBrackets := by
          unfold buildInsts
          rw [hf]
        have hsome0 : brFoldPairs (runLength (src.filter isBfChar)) 0
            = some st.stack.length :=
          (foldlM_pairStep_stack _ ⟨[], []⟩).2 st hf
        rw [hred, hsome0]
        by_cases hs : st.stack.isEmpty = true
        · rw [if_pos hs]
          have hempty : st.stack = [] := List.isEmpty_iff.mp hs
          constructor
          · intro h
            cases h
          · intro hne
            exfalso
            apply hne
            rw [hempty]
            rfl
        · rw [if_neg hs]
          constructor
          · intro _
            intro hcontra
            have hnil : st.stack = [] :=
              List.length_eq_zero.mp (Option.some.inj hcontra)
            exact hs (by rw [hnil]; rfl)
          · intro _
            rfl
  · intro e h
    cases e
    rfl

theorem C2_unbalanced_brackets_witness :
    buildInsts [']'] = .error CompileError.UnbalancedBrackets :=
  (C2_unbalanced_brackets [']']).1.mpr (by decide)

/-! ## C5: one instruction per collapsed run, N instructions per I/O or bracket run -/

theorem repOpen_insts (l : Nat) : ∀ st : BuildState,
    (repOpen l st).insts = st.insts ++ List.replicate l (Inst.JmpFwd 0) := by
  induction l with
  | zero =>
      intro st
      simp [repOpen]
  | succ l ih =>
      intro st
      rw [repOpen, ih]
      simp [openStep, List.replicate_succ]

theorem repClose_spec (l : Nat) : ∀ st : BuildState,
    (∀ s ∈ st.stack, s < st.insts.length) →
    l ≤ st.stack.length →
    ∃ st1, repClose l st = some st1 ∧
      st1.stack = st.stack.drop l ∧
      st1.insts.length = st.insts.length + l ∧
      st1.insts.drop st.insts.length = (st.stack.take l).map Inst.JmpBack ∧
      (∀ j, j < st.insts.length → j ∉ st.stack.take l →
        st1.insts[j]? = st.insts[j]?) := by
  induction l with
  | zero =>
      intro st _ _
      refine ⟨st, rfl, (List.drop_zero _).symm, by omega, ?_, fun j hj hn => rfl⟩
      simp
  | succ l ih =>
      intro st hb hle
      cases hst : st.stack with
      | nil =>
          rw [hst] at hle
          simp at hle
      | cons n rest =>
          have hn : n < st.insts.length := by
            refine hb n ?_
            rw [hst]
            exact List.mem_cons_self n rest
          have hstep : closeStep st =
              some ⟨st.insts.set n (Inst.JmpFwd st.insts.length) ++ [Inst.JmpBack n], rest⟩ := by
            unfold closeStep
            rw [hst]
          have hrest : l ≤ rest.length := by
            rw [hst] at hle
            simpa using hle
          have hb1 : ∀ s ∈ rest,
              s < (st.insts.set n (Inst.JmpFwd st.insts.length) ++ [Inst.JmpBack n]).length := by
            intro s hs
            have hlt := hb s (by rw [hst]; exact List.mem_cons_of_mem n hs)
            simp
            omega
          obtain ⟨st1, h1, h2, h3, h4, h5⟩ :=
            ih ⟨st.insts.set n (Inst.JmpFwd st.insts.length) ++ [Inst.JmpBack n], rest⟩ hb1 hrest
          dsimp only at h2 h3 h4 h5
          have hAlen : (st.insts.set n (Inst.JmpFwd st.insts.length) ++ [Inst.JmpBack n]).length
              = st.insts.length + 1 := by
            simp
          refine ⟨st1, ?_, ?_, ?_, ?_, ?_⟩
          · rw [repClose, hstep]
            exact h1
          · rw [h2]
            rfl
          · rw [h3, hAlen]
            omega
          · have hlen1 : st.insts.length < st1.insts.length := by
              rw [h3, hAlen]
              omega
            rw [List.drop_eq_getElem_cons hlen1]
            have hgetA : (st.insts.set n (Inst.JmpFwd st.insts.length)
                ++ [Inst.JmpBack n])[st.insts.length]? = some (Inst.JmpBack n) := by
              rw [List.getElem?_append_right (by simp)]
              simp
            have hnotin : st.insts.length ∉ rest.take l := by
              intro hmem
              have hmem2 : st.insts.length ∈ rest := List.take_subset l rest hmem
              have := hb st.insts.length (by rw [hst]; exact List.mem_cons_of_mem n hmem2)
              omega
            have hget1 : st1.insts[st.insts.length]? = some (Inst.JmpBack n) := by
              rw [h5 st.insts.length (by rw [hAlen]; omega) hnotin, hgetA]
            have hgetel : st1.insts[st.insts.length] = Inst.JmpBack n := by
              have := List.getElem?_eq_getElem hlen1
              rw [this] at hget1
              exact Option.some.inj hget1
            have hdrop2 : st1.insts.drop (st.insts.length + 1) = (rest.take l).map Inst.JmpBack := by
              rw [← hAlen]
              exact h4
            rw [hgetel, hdrop2]
            rfl
          · intro j hj hnotin
            rw [List.take_succ_cons] at hnotin
            simp only [List.mem_cons, not_or] at hnotin
            obtain ⟨hjn, hjrest⟩ := hnotin
            rw [h5 j (by rw [hAlen]; omega) hjrest]
            rw [List.getElem?_append_left (by simp; omega)]
            rw [List.getElem?_set_ne (show n ≠ j from fun he => hjn he.symm)]

/-- C5: for a maximal run of `N` identical move or adjust symbols the
builder appends exactly one instruction carrying amount `N`; for a run of
`N` I/O symbols it appends `N` separate instructions; for a run of `N`
open brackets it appends `N` separate placeholder jumps and `N` pending
stack entries; and for a run of `N` close brackets (with at least `N`
pending opens, all in range) it appends `N` separate `JmpBack`
instructions whose targets are the `N` popped open indices - pairwise
distinct whenever the pending-open stack is duplicate-free. -/
theorem C5_run_to_instructions (st : BuildState) (N : Nat) :
    (pairStep st (N, '>') = some { st with insts := st.insts ++ [Inst.IncPtr N] } ∧
     pairStep st (N, '<') = some { st with insts := st.insts ++ [Inst.DecPtr N] } ∧
     pairStep st (N, '+') = some { st with insts := st.insts ++ [Inst.IncVal N] } ∧
     pairStep st (N, '-') = some { st with insts := st.insts ++ [Inst.DecVal N] }) ∧
    (pairStep st (N, '.') = some { st with insts := st.insts ++ List.replicate N Inst.PrintCell } ∧
     pairStep st (N, ',') = some { st with insts := st.insts ++ List.replicate N Inst.ReadChar }) ∧
    (pairStep st (N, '[') = some (repOpen N st) ∧
     (repOpen N st).insts = st.insts ++ List.replicate N (Inst.JmpFwd 0) ∧
     (repOpen N st).stack.length = N + st.stack.length) ∧
    ((∀ s ∈ st.stack, s < st.insts.length) → N ≤ st.stack.length →
      ∃ st1, pairStep st (N, ']') = some st1 ∧
        st1.insts.length = st.insts.length + N ∧
        st1.insts.drop st.insts.length = (st.stack.take N).map Inst.JmpBack ∧
        st1.stack = st.stack.drop N ∧
        (st.stack.Nodup → ((st.stack.take N).map Inst.JmpBack).Nodup)) := by
  refine ⟨⟨rfl, rfl, rfl, rfl⟩, ⟨rfl, rfl⟩,
    ⟨rfl, repOpen_insts N st, repOpen_stack_length N st⟩, ?_⟩
  intro hb hle
  obtain ⟨st1, h1, h2, h3, h4, _⟩ := repClose_spec N st hb hle
  refine ⟨st1, ?_, h3, h4, h2, ?_⟩
  · rw [pairStep_close]
    exact h1
  · intro hnd
    refine List.Nodup.map ?_ (hnd.sublist (List.take_sublist N st.stack))
    intro a b hab
    exact Inst.JmpBack.inj hab

theorem C5_run_to_instructions_witness :
    ∃ st1, pairStep ⟨[Inst.JmpFwd 0, Inst.JmpFwd 0], [1, 0]⟩ (2, ']') = some st1 ∧
      st1.insts.length = 2 + 2 ∧
      st1.insts.drop 2 = [Inst.JmpBack 1, Inst.JmpBack 0] ∧
      st1.stack = [] ∧
      ([(1 : Nat), 0].Nodup → [Inst.JmpBack 1, Inst.JmpBack 0].Nodup) :=
  (C5_run_to_instructions ⟨[Inst.JmpFwd 0, Inst.JmpFwd 0], [1, 0]⟩ 2).2.2.2
    (by decide) (by decide)

/-! ## C1: the bracket-pairing invariant of the builder -/

/-- Whether an instruction is one of the two jump forms. -/
def isJmp : Inst → Bool
  | Inst.JmpFwd _ => true
  | Inst.JmpBack _ => true
  | _ => false

/-- The loop invariant of `Brainfuck::new`: pending opens are in-range
dummy `JmpFwd 0` entries, pushed in increasing index order; every
`JmpBack` already present points back at its `JmpFwd`, which points right
past it; every `JmpFwd` is either a pending dummy or resolved; resolved
pairs never straddle a pending open and never cross each other. -/
def BuildInv (st : BuildState) : Prop :=
  (∀ s ∈ st.stack, s < st.insts.length ∧ st.insts[s]? = some (Inst.JmpFwd 0)) ∧
  List.Pairwise (· > ·) st.stack ∧
  (∀ t n, st.insts[t]? = some (Inst.JmpBack n) → n < t ∧ st.insts[n]? = some (Inst.JmpFwd t)) ∧
  (∀ n t, st.insts[n]? = some (Inst.JmpFwd t) →
    (t = 0 ∧ n ∈ st.stack) ∨ (n < t ∧ st.insts[t]? = some (Inst.JmpBack n))) ∧
  (∀ n t, st.insts[t]? = some (Inst.JmpBack n) → ∀ s ∈ st.stack, t < s ∨ s < n) ∧
  (∀ n1 t1 n2 t2, st.insts[t1]? = some (Inst.JmpBack n1) →
    st.insts[t2]? = some (Inst.JmpBack n2) → n1 < n2 → n2 < t1 → t2 < t1)

theorem inv_initial : BuildInv ⟨[], []⟩ := by
  refine ⟨?_, ?_, ?_, ?_, ?_, ?_⟩
  · intro s hs
    simp at hs
  · exact List.Pairwise.nil
  · intro t n hget
    simp at hget
  · intro n t hget
    simp at hget
  · intro n t hget
    simp at hget
  · intro n1 t1 n2 t2 hget
    simp at hget

theorem getElem?_lt_length {α : Type} {l : List α} {j : Nat} {v : α}
    (h : l[j]? = some v) : j < l.length := by
  by_contra hge
  rw [List.getElem?_eq_none (by omega)] at h
  cases h

/-- Appending instructions that are not jumps preserves the invariant. -/
theorem append_nonjump_inv (st : BuildState) (l : List Inst)
    (hl : ∀ i ∈ l, isJmp i = false) (hinv : BuildInv st) :
    BuildInv ⟨st.insts ++ l, st.stack⟩ := by
  obtain ⟨h1, h2, h3, h4, h5, h6⟩ := hinv
  have hget : ∀ (j : Nat) (v : Inst), (st.insts ++ l)[j]? = some v → isJmp v = true →
      st.insts[j]? = some v := by
    intro j v hj hv
    by_cases hlt : j < st.insts.length
    · rw [List.getElem?_append_left hlt] at hj
      exact hj
    · rw [List.getElem?_append_right (by omega)] at hj
      have hmem : v ∈ l := List.getElem?_mem hj
      rw [hl v hmem] at hv
      cases hv
  have hget2 : ∀ (j : Nat) (v : Inst), st.insts[j]? = some v → (st.insts ++ l)[j]? = some v := by
    intro j v hj
    rw [List.getElem?_append_left (getElem?_lt_length hj)]
    exact hj
  refine ⟨?_, h2, ?_, ?_, ?_, ?_⟩
  · intro s hs
    obtain ⟨hlt, hv⟩ := h1 s hs
    refine ⟨by simp; omega, hget2 s _ hv⟩
  · intro t n hget1
    obtain ⟨hlt, hv⟩ := h3 t n (hget t _ hget1 rfl)
    exact ⟨hlt, hget2 n _ hv⟩
  · intro n t hget1
    rcases h4 n t (hget n _ hget1 rfl) with ⟨ht0, hmem⟩ | ⟨hlt, hv⟩
    · exact Or.inl ⟨ht0, hmem⟩
    · exact Or.inr ⟨hlt, hget2 t _ hv⟩
  · intro n t hget1 s hs
    exact h5 n t (hget t _ hget1 rfl) s hs
  · intro n1 t1 n2 t2 hg1 hg2 hlt1 hlt2
    exact h6 n1 t1 n2 t2 (hget t1 _ hg1 rfl) (hget t2 _ hg2 rfl) hlt1 hlt2

/-- Pushing one open bracket preserves the invariant. -/
theorem openStep_inv (st : BuildState) (hinv : BuildInv st) : BuildInv (openStep st) := by
  obtain ⟨h1, h2, h3, h4, h5, h6⟩ := hinv
  have hnew : (st.insts ++ [Inst.JmpFwd 0])[st.insts.length]? = some (Inst.JmpFwd 0) :=
    List.getElem?_concat_length st.insts (Inst.JmpFwd 0)
  have hup : ∀ (j : Nat) (v : Inst), st.insts[j]? = some v → (st.insts ++ [Inst.JmpFwd 0])[j]? = some v := by
    intro j v hj
    rw [List.getElem?_append_left (getElem?_lt_length hj)]
    exact hj
  have hdown : ∀ (j : Nat) (v : Inst), (st.insts ++ [Inst.JmpFwd 0])[j]? = some v →
      st.insts[j]? = some v ∨ (j = st.insts.length ∧ v = Inst.JmpFwd 0) := by
    intro j v hj
    by_cases hlt : j < st.insts.length
    · rw [List.getElem?_append_left hlt] at hj
      exact Or.inl hj
    · have hb : j < st.insts.length + 1 := by
        have := getElem?_lt_length hj
        simpa using this
      have hje : j = st.insts.length := by omega
      subst hje
      rw [hnew] at hj
      exact Or.inr ⟨rfl, (Option.some.inj hj).symm⟩
  unfold BuildInv openStep
  dsimp only
  refine ⟨?_, ?_, ?_, ?_, ?_, ?_⟩
  · intro s hs
    rcases List.mem_cons.mp hs with hse | hsm
    · subst hse
      exact ⟨by simp, hnew⟩
    · obtain ⟨hlt, hv⟩ := h1 s hsm
      exact ⟨by simp; omega, hup s _ hv⟩
  · rw [List.pairwise_cons]
    refine ⟨fun s hs => (h1 s hs).1, h2⟩
  · intro t n hget
    rcases hdown t _ hget with hv | ⟨hte, hve⟩
    · obtain ⟨hlt, hv2⟩ := h3 t n hv
      exact ⟨hlt, hup n _ hv2⟩
    · cases hve
  · intro n t hget
    rcases hdown n _ hget with hv | ⟨hne, hve⟩
    · rcases h4 n t hv with ⟨ht0, hmem⟩ | ⟨hlt, hv2⟩
      · exact Or.inl ⟨ht0, List.mem_cons_of_mem _ hmem⟩
      · exact Or.inr ⟨hlt, hup t _ hv2⟩
    · refine Or.inl ⟨?_, ?_⟩
      · exact Inst.JmpFwd.inj hve
      · rw [hne]
        exact List.mem_cons_self _ _
  · intro n t hget s hs
    rcases hdown t _ hget with hv | ⟨hte, hve⟩
    · rcases List.mem_cons.mp hs with hse | hsm
      · subst hse
        obtain ⟨hlt, _⟩ := h3 t n hv
        have := getElem?_lt_length hv
        omega
      · exact h5 n t hv s hsm
    · cases hve
  · intro n1 t1 n2 t2 hg1 hg2 hlt1 hlt2
    rcases hdown t1 _ hg1 with hv1 | ⟨hte, hve⟩
    · rcases hdown t2 _ hg2 with hv2 | ⟨hte2, hve2⟩
      · exact h6 n1 t1 n2 t2 hv1 hv2 hlt1 hlt2
      · cases hve2
    · cases hve

/-- Resolving one close bracket preserves the invariant. -/
theorem closeStep_inv (st st1 : BuildState) (hinv : BuildInv st)
    (h : closeStep st = some st1) : BuildInv st1 := by
  obtain ⟨h1, h2, h3, h4, h5, h6⟩ := hinv
  cases hst : st.stack with
  | nil =>
      unfold closeStep at h
      rw [hst] at h
      cases h
  | cons s rest =>
      unfold closeStep at h
      rw [hst] at h
      obtain rfl : st1 = ⟨st.insts.set s (Inst.JmpFwd st.insts.length) ++ [Inst.JmpBack s], rest⟩ :=
        (Option.some.inj h).symm
      obtain ⟨hsL, hs0⟩ := h1 s (by rw [hst]; exact List.mem_cons_self s rest)
      have hrest_lt : ∀ x ∈ rest, x < s := by
        have hp := h2
        rw [hst, List.pairwise_cons] at hp
        exact fun x hx => hp.1 x hx
      have hrest_pw : List.Pairwise (· > ·) rest := by
        have hp := h2
        rw [hst, List.pairwise_cons] at hp
        exact hp.2
      have hno_back_s : ∀ (t n : Nat), st.insts[t]? = some (Inst.JmpBack n) → n ≠ s ∧ t ≠ s := by
        intro t n hget
        constructor
        · intro hne
          subst hne
          obtain ⟨hnt, hfwd⟩ := h3 t n hget
          rw [hs0] at hfwd
          have ht0 : t = 0 := (Inst.JmpFwd.inj (Option.some.inj hfwd)).symm
          omega
        · intro hte
          subst hte
          rw [hs0] at hget
          cases Option.some.inj hget
      have hA_s : (st.insts.set s (Inst.JmpFwd st.insts.length)
          ++ [Inst.JmpBack s])[s]? = some (Inst.JmpFwd st.insts.length) := by
        rw [List.getElem?_append_left (by simp; omega)]
        exact List.getElem?_set_self hsL
      have hA_L : (st.insts.set s (Inst.JmpFwd st.insts.length)
          ++ [Inst.JmpBack s])[st.insts.length]? = some (Inst.JmpBack s) := by
        rw [List.getElem?_append_right (by simp)]
        simp
      have hA_lt : ∀ (j : Nat), j < st.insts.length → j ≠ s →
          (st.insts.set s (Inst.JmpFwd st.insts.length) ++ [Inst.JmpBack s])[j]?
            = st.insts[j]? := by
        intro j hj hjs
        rw [List.getElem?_append_left (by simp; omega)]
        exact List.getElem?_set_ne (fun he => hjs he.symm)
      have hA_char : ∀ (j : Nat) (v : Inst),
          (st.insts.set s (Inst.JmpFwd st.insts.length) ++ [Inst.JmpBack s])[j]? = some v →
          (j = s ∧ v = Inst.JmpFwd st.insts.length) ∨
          (j = st.insts.length ∧ v = Inst.JmpBack s) ∨
          (j < st.insts.length ∧ j ≠ s ∧ st.insts[j]? = some v) := by
        intro j v hj
        have hjb : j < st.insts.length + 1 := by
          have := getElem?_lt_length hj
          simpa using this
        by_cases hjs : j = s
        · subst hjs
          rw [hA_s] at hj
          exact Or.inl ⟨rfl, (Option.some.inj hj).symm⟩
        · by_cases hjL : j = st.insts.length
          · subst hjL
            rw [hA_L] at hj
            exact Or.inr (Or.inl ⟨rfl, (Option.some.inj hj).symm⟩)
          · have hjlt : j < st.insts.length := by omega
            rw [hA_lt j hjlt hjs] at hj
            exact Or.inr (Or.inr ⟨hjlt, hjs, hj⟩)
      unfold BuildInv
      dsimp only
      refine ⟨?_, hrest_pw, ?_, ?_, ?_, ?_⟩
      · intro x hx
        have hxs : x < s := hrest_lt x hx
        obtain ⟨hxL, hx0⟩ := h1 x (by rw [hst]; exact List.mem_cons_of_mem s hx)
        refine ⟨by simp; omega, ?_⟩
        rw [hA_lt x hxL (by omega)]
        exact hx0
      · intro t n hget
        rcases hA_char t _ hget with ⟨hts, hv⟩ | ⟨htL, hv⟩ | ⟨htlt, hts, hold⟩
        · cases hv
        · have hns : n = s := Inst.JmpBack.inj hv
          subst hns
          subst htL
          exact ⟨hsL, hA_s⟩
        · obtain ⟨hnt, hfwd⟩ := h3 t n hold
          obtain ⟨hns, _⟩ := hno_back_s t n hold
          refine ⟨hnt, ?_⟩
          rw [hA_lt n (by omega) hns]
          exact hfwd
      · intro n t hget
        rcases hA_char n _ hget with ⟨hns, hv⟩ | ⟨hnL, hv⟩ | ⟨hnlt, hns, hold⟩
        · have htL : t = st.insts.length := Inst.JmpFwd.inj hv
          subst htL
          subst hns
          exact Or.inr ⟨hsL, hA_L⟩
        · cases hv
        · rcases h4 n t hold with ⟨ht0, hmem⟩ | ⟨hnt, hback⟩
          · refine Or.inl ⟨ht0, ?_⟩
            rw [hst] at hmem
            rcases List.mem_cons.mp hmem with hes | hem
            · exact absurd hes hns
            · exact hem
          · obtain ⟨_, hts⟩ := hno_back_s t n hback
            have htlt : t < st.insts.length := getElem?_lt_length hback
            refine Or.inr ⟨hnt, ?_⟩
            rw [hA_lt t htlt hts]
            exact hback
      · intro n t hget x hx
        have hxs : x < s := hrest_lt x hx
        rcases hA_char t _ hget with ⟨hts, hv⟩ | ⟨htL, hv⟩ | ⟨htlt, hts, hold⟩
        · cases hv
        · have hns : n = s := Inst.JmpBack.inj hv
          subst hns
          exact Or.inr hxs
        · exact h5 n t hold x (by rw [hst]; exact List.mem_cons_of_mem s hx)
      · intro n1 t1 n2 t2 hg1 hg2 hlt1 hlt2
        rcases hA_char t1 _ hg1 with ⟨hts, hv1⟩ | ⟨htL1, hv1⟩ | ⟨htlt1, hts1, hold1⟩
        · cases hv1
        · rcases hA_char t2 _ hg2 with ⟨hts2, hv2⟩ | ⟨htL2, hv2⟩ | ⟨htlt2, hts2, hold2⟩
          · cases hv2
          · have hn1 : n1 = s := Inst.JmpBack.inj hv1
            have hn2 : n2 = s := Inst.JmpBack.inj hv2
            omega
          · omega
        · rcases hA_char t2 _ hg2 with ⟨hts2, hv2⟩ | ⟨htL2, hv2⟩ | ⟨htlt2, hts2, hold2⟩
          · cases hv2
          · have hn2 : n2 = s := Inst.JmpBack.inj hv2
            have hd := h5 n1 t1 hold1 s (by rw [hst]; exact List.mem_cons_self s rest)
            rcases hd with hd | hd <;> omega
          · exact h6 n1 t1 n2 t2 hold1 hold2 hlt1 hlt2

theorem repOpen_inv (l : Nat) : ∀ st : BuildState, BuildInv st → BuildInv (repOpen l st) := by
  induction l with
  | zero => intro st h; exact h
  | succ l ih =>
      intro st h
      rw [repOpen]
      exact ih (openStep st) (openStep_inv st h)

theorem repClose_inv (l : Nat) : ∀ st st1 : BuildState, BuildInv st →
    repClose l st = some st1 → BuildInv st1 := by
  induction l with
  | zero =>
      intro st st1 h he
      obtain rfl : st = st1 := Option.some.inj he
      exact h
  | succ l ih =>
      intro st st1 h he
      rw [repClose] at he
      cases hc : closeStep st with
      | none =>
          rw [hc] at he
          cases he
      | some st2 =>
          rw [hc] at he
          exact ih st2 st1 (closeStep_inv st st2 h hc) he

theorem pairStep_inv (st st1 : BuildState) (p : Nat × Char) (h : BuildInv st)
    (he : pairStep st p = some st1) : BuildInv st1 := by
  obtain ⟨l, c⟩ := p
  simp only [pairStep] at he
  by_cases ha : c = '>'
  · rw [if_pos ha] at he
    obtain rfl : st1 = ⟨st.insts ++ [Inst.IncPtr l], st.stack⟩ := (Option.some.inj he).symm
    exact append_nonjump_inv st [Inst.IncPtr l]
      (by intro i hi; simp at hi; subst hi; rfl) h
  · rw [if_neg ha] at he
    by_cases hb : c = '<'
    · rw [if_pos hb] at he
      obtain rfl : st1 = ⟨st.insts ++ [Inst.DecPtr l], st.stack⟩ := (Option.some.inj he).symm
      exact append_nonjump_inv st [Inst.DecPtr l]
        (by intro i hi; simp at hi; subst hi; rfl) h
    · rw [if_neg hb] at he
      by_cases hc : c = '+'
      · rw [if_pos hc] at he
        obtain rfl : st1 = ⟨st.insts ++ [Inst.IncVal l], st.stack⟩ := (Option.some.inj he).symm
        exact append_nonjump_inv st [Inst.IncVal l]
          (by intro i hi; simp at hi; subst hi; rfl) h
      · rw [if_neg hc] at he
        by_cases hd : c = '-'
        · rw [if_pos hd] at he
          obtain rfl : st1 = ⟨st.insts ++ [Inst.DecVal l], st.stack⟩ := (Option.some.inj he).symm
          exact append_nonjump_inv st [Inst.DecVal l]
            (by intro i hi; simp at hi; subst hi; rfl) h
        · rw [if_neg hd] at he
          by_cases hdot : c = '.'
          · rw [if_pos hdot] at he
            obtain rfl : st1 = ⟨st.insts ++ List.replicate l Inst.PrintCell, st.stack⟩ :=
              (Option.some.inj he).symm
            exact append_nonjump_inv st (List.replicate l Inst.PrintCell)
              (by intro i hi; rw [List.eq_of_mem_replicate hi]; rfl) h
          · rw [if_neg hdot] at he
            by_cases hcom : c = ','
            · rw [if_pos hcom] at he
              obtain rfl : st1 = ⟨st.insts ++ List.replicate l Inst.ReadChar, st.stack⟩ :=
                (Option.some.inj he).symm
              exact append_nonjump_inv st (List.replicate l Inst.ReadChar)
                (by intro i hi; rw [List.eq_of_mem_replicate hi]; rfl) h
            · rw [if_neg hcom] at he
              by_cases hop : c = '['
              · rw [if_pos hop] at he
                obtain rfl : st1 = repOpen l st := (Option.some.inj he).symm
                exact repOpen_inv l st h
              · rw [if_neg hop] at he
                by_cases hcl : c = ']'
                · rw [if_pos hcl] at he
                  exact repClose_inv l st st1 h he
                · rw [if_neg hcl] at he
                  obtain rfl : st1 = st := (Option.some.inj he).symm
                  exact h

theorem foldlM_pairStep_inv (pairs : List (Nat × Char)) : ∀ st st1 : BuildState,
    BuildInv st → pairs.foldlM pairStep st = some st1 → BuildInv st1 := by
  induction pairs with
  | nil =>
      intro st st1 h he
      simp at he
      subst he
      exact h
  | cons p ps ih =>
      intro st st1 h he
      rw [List.foldlM_cons] at he
      cases hp : pairStep st p with
      | none =>
          rw [hp] at he
          cases he
      | some st2 =>
          rw [hp] at he
          exact ih st2 st1 (pairStep_inv st st2 p h hp) he

theorem buildInsts_inv (src : List Char) (insts : List Inst)
    (h : buildInsts src = .ok insts) :
    ∃ st : BuildState, st.insts = insts ∧ st.stack = [] ∧ BuildInv st := by
  unfold buildInsts at h
  cases hf : (runLength (src.filter isBfChar)).foldlM pairStep ⟨[], []⟩ with
  | none =>
      rw [hf] at h
      cases h
  | some st =>
      rw [hf] at h
      have h2 : (if st.stack.isEmpty then Except.ok st.insts
          else Except.error CompileError.UnbalancedBrackets) = Except.ok insts := h
      by_cases hs : st.stack.isEmpty = true
      · rw [if_pos hs] at h2
        exact ⟨st, Except.ok.inj h2, List.isEmpty_iff.mp hs,
          foldlM_pairStep_inv _ ⟨[], []⟩ st inv_initial hf⟩
      · rw [if_neg hs] at h2
        cases h2

/-- C1: in every successfully built program, each JmpFwd at index `i` with
target `t` is matched by the JmpBack at index `t` targeting `i` and
conversely; no jump other than the members of a pair targets either member
of the pair; and pairs never cross (they are stack-matched). -/
theorem C1_jump_pairing (src : List Char) (insts : List Inst)
    (h : buildInsts src = .ok insts) :
    (∀ i t, insts[i]? = some (Inst.JmpFwd t) →
      i < t ∧ t < insts.length ∧ insts[t]? = some (Inst.JmpBack i)) ∧
    (∀ t i, insts[t]? = some (Inst.JmpBack i) → i < t ∧ insts[i]? = some (Inst.JmpFwd t)) ∧
    (∀ i t j u, insts[i]? = some (Inst.JmpFwd t) → j ≠ i → j ≠ t →
      (insts[j]? = some (Inst.JmpFwd u) ∨ insts[j]? = some (Inst.JmpBack u)) →
      u ≠ i ∧ u ≠ t) ∧
    (∀ i1 t1 i2 t2, insts[i1]? = some (Inst.JmpFwd t1) → insts[i2]? = some (Inst.JmpFwd t2) →
      i1 < i2 → i2 < t1 → t2 < t1) := by
  obtain ⟨st, hsi, hss, hinv⟩ := buildInsts_inv src insts h
  obtain ⟨h1, h2, h3, h4, h5, h6⟩ := hinv
  subst hsi
  have hres : ∀ i t, st.insts[i]? = some (Inst.JmpFwd t) →
      i < t ∧ st.insts[t]? = some (Inst.JmpBack i) := by
    intro i t hg
    rcases h4 i t hg with ⟨ht0, hmem⟩ | ⟨hlt, hback⟩
    · rw [hss] at hmem
      simp at hmem
    · exact ⟨hlt, hback⟩
  refine ⟨?_, ?_, ?_, ?_⟩
  · intro i t hg
    obtain ⟨hlt, hback⟩ := hres i t hg
    exact ⟨hlt, getElem?_lt_length hback, hback⟩
  · intro t i hg
    exact h3 t i hg
  · intro i t j u hg hji hjt hj
    obtain ⟨hit, hback⟩ := hres i t hg
    rcases hj with hjf | hjb
    · obtain ⟨hju, hbu⟩ := hres j u hjf
      constructor
      · intro he
        rw [he, hg] at hbu
        exact Inst.noConfusion (Option.some.inj hbu)
      · intro he
        rw [he, hback] at hbu
        exact hji (Inst.JmpBack.inj (Option.some.inj hbu)).symm
    · obtain ⟨huj, hfw⟩ := h3 j u hjb
      constructor
      · intro he
        rw [he, hg] at hfw
        exact hjt (Inst.JmpFwd.inj (Option.some.inj hfw)).symm
      · intro he
        rw [he, hback] at hfw
        exact Inst.noConfusion (Option.some.inj hfw)
  · intro i1 t1 i2 t2 hg1 hg2 hi hlt
    obtain ⟨_, hb1⟩ := hres i1 t1 hg1
    obtain ⟨_, hb2⟩ := hres i2 t2 hg2
    exact h6 i1 t1 i2 t2 hb1 hb2 hi hlt

theorem C1_jump_pairing_witness :
    buildInsts ['[', '[', ']', ']']
      = .ok [Inst.JmpFwd 3, Inst.JmpFwd 2, Inst.JmpBack 1, Inst.JmpBack 0] ∧
    (0 < 3 ∧ 3 < [Inst.JmpFwd 3, Inst.JmpFwd 2, Inst.JmpBack 1, Inst.JmpBack 0].length ∧
      [Inst.JmpFwd 3, Inst.JmpFwd 2, Inst.JmpBack 1, Inst.JmpBack 0][3]?
        = some (Inst.JmpBack 0)) :=
  ⟨rfl, (C1_jump_pairing ['[', '[', ']', ']']
      [Inst.JmpFwd 3, Inst.JmpFwd 2, Inst.JmpBack 1, Inst.JmpBack 0] rfl).1 0 3 rfl⟩

/-! ## C3, C4: the byte layout produced by the two compilation passes -/

/-- The number of bytes `compile` emits for one instruction. -/
def instSize : Inst → Nat
  | Inst.IncPtr a => if a = 1 then 3 else 7
  | Inst.DecPtr a => if a = 1 then 3 else 7
  | Inst.IncVal a => if a = 1 then 2 else 3
  | Inst.DecVal a => if a = 1 then 2 else 3
  | Inst.PrintCell => 17
  | Inst.ReadChar => 13
  | Inst.JmpFwd _ => 9
  | Inst.JmpBack _ => 9

/-- Byte offset at which the code of instruction `i` starts. -/
def offBefore (insts : List Inst) (i : Nat) : Nat :=
  ((List.range i).map (fun j => instSize (insts.getD j Inst.PrintCell))).sum

/-- Byte offset just past the code of instruction `i` (what `addr_mapping`
records for jumps). -/
def offAfter (insts : List Inst) (i : Nat) : Nat :=
  offBefore insts (i + 1)

/-- The bytes pass one emits for instruction `i`: real code everywhere,
with the dummy displacement `0x41414141 - 9` in `JmpFwd` placeholders. -/
def encD (insts : List Inst) (i : Nat) : List Nat :=
  match insts.getD i Inst.PrintCell with
  | Inst.IncPtr a =>
      if a = 1 then [0x48, 0xff, 0xc6] else [0x48, 0x81, 0xc6] ++ le32 (a % 4294967296)
  | Inst.DecPtr a =>
      if a = 1 then [0x48, 0xff, 0xce] else [0x48, 0x81, 0xee] ++ le32 (a % 4294967296)
  | Inst.IncVal a => if a = 1 then [0xfe, 0x06] else [0x80, 0x06, a % 256]
  | Inst.DecVal a => if a = 1 then [0xfe, 0x0e] else [0x80, 0x2e, a % 256]
  | Inst.PrintCell =>
      [0xb8, 0x01, 0x00, 0x00, 0x00, 0xbf, 0x01, 0x00, 0x00, 0x00,
       0xba, 0x01, 0x00, 0x00, 0x00, 0x0f, 0x05]
  | Inst.ReadChar =>
      [0x48, 0x31, 0xc0, 0x48, 0x31, 0xff, 0xba, 0x01, 0x00, 0x00, 0x00, 0x0f, 0x05]
  | Inst.JmpFwd _ =>
      [0x80, 0x3e, 0x00, 0x0f, 0x84] ++ le32i ((0x41414141 : Int) - 9)
  | Inst.JmpBack n =>
      [0x80, 0x3e, 0x00, 0x0f, 0x85]
        ++ le32i (-((offBefore insts i : Int) - (offAfter insts n : Int)) - 9)

/-- The final bytes for instruction `i`, after pass two has patched the
forward-jump placeholders with `addr_mapping[target] - placeholder_site`. -/
def encF (insts : List Inst) (i : Nat) : List Nat :=
  match insts.getD i Inst.PrintCell with
  | Inst.JmpFwd n =>
      [0x80, 0x3e, 0x00, 0x0f, 0x84]
        ++ le32i (((offAfter insts n - offBefore insts i : Nat) : Int) - 9)
  | _ => encD insts i

/-- Executable well-formedness of jump targets: exactly the pairing that
`C1_jump_pairing` establishes for every successfully built program. -/
def wfCheck (insts : List Inst) : Bool :=
  (List.range insts.length).all fun i =>
    match insts.getD i Inst.PrintCell with
    | Inst.JmpFwd n => decide (i < n) && decide (insts[n]? = some (Inst.JmpBack i))
    | Inst.JmpBack n => decide (n < i) && decide (insts[n]? = some (Inst.JmpFwd i))
    | _ => true

theorem getD_eq_of_getElem? {α : Type} {l : List α} {i : Nat} {v d : α}
    (h : l[i]? = some v) : l.getD i d = v := by
  rw [List.getD_eq_getElem?_getD, h]
  rfl

theorem wfCheck_fwd {insts : List Inst} (h : wfCheck insts = true)
    {i n : Nat} (hg : insts[i]? = some (Inst.JmpFwd n)) :
    i < n ∧ insts[n]? = some (Inst.JmpBack i) := by
  have hi : i < insts.length := getElem?_lt_length hg
  have hall := List.all_eq_true.mp h i (List.mem_range.mpr hi)
  rw [getD_eq_of_getElem? hg] at hall
  simp at hall
  exact hall

theorem wfCheck_back {insts : List Inst} (h : wfCheck insts = true)
    {i n : Nat} (hg : insts[i]? = some (Inst.JmpBack n)) :
    n < i ∧ insts[n]? = some (Inst.JmpFwd i) := by
  have hi : i < insts.length := getElem?_lt_length hg
  have hall := List.all_eq_true.mp h i (List.mem_range.mpr hi)
  rw [getD_eq_of_getElem? hg] at hall
  simp at hall
  exact hall

theorem encD_length (insts : List Inst) (i : Nat) :
    (encD insts i).length = instSize (insts.getD i Inst.PrintCell) := by
  unfold encD instSize
  cases insts.getD i Inst.PrintCell with
  | IncPtr a => by_cases h : a = 1 <;> simp [h, le32]
  | DecPtr a => by_cases h : a = 1 <;> simp [h, le32]
  | IncVal a => by_cases h : a = 1 <;> simp [h]
  | DecVal a => by_cases h : a = 1 <;> simp [h]
  | PrintCell => rfl
  | ReadChar => rfl
  | JmpFwd n => simp [le32i, le32]
  | JmpBack n => simp [le32i, le32]

theorem encF_length (insts : List Inst) (i : Nat) :
    (encF insts i).length = instSize (insts.getD i Inst.PrintCell) := by
  unfold encF
  have h2 := encD_length insts i
  cases hd : insts.getD i Inst.PrintCell with
  | JmpFwd n => simp [le32i, le32, instSize]
  | IncPtr a => rw [hd] at h2; exact h2
  | DecPtr a => rw [hd] at h2; exact h2
  | IncVal a => rw [hd] at h2; exact h2
  | DecVal a => rw [hd] at h2; exact h2
  | PrintCell => rw [hd] at h2; exact h2
  | ReadChar => rw [hd] at h2; exact h2
  | JmpBack n => rw [hd] at h2; exact h2

theorem offBefore_succ (insts : List Inst) (k : Nat) :
    offBefore insts (k + 1) = offBefore insts k + instSize (insts.getD k Inst.PrintCell) := by
  unfold offBefore
  rw [List.range_succ, List.map_append, List.sum_append]
  simp

/-- The bytes accumulated by pass one over the first `k` instructions. -/
def dummyJoin (insts : List Inst) (k : Nat) : List Nat :=
  ((List.range k).map (encD insts)).flatten

/-- The `fwd_jumps` entries recorded by pass one over the first `k`
instructions: the placeholder byte offset and the logical target index of
every `JmpFwd`. -/
def fwdSpec (insts : List Inst) (k : Nat) : List (Nat × Nat) :=
  (List.range k).filterMap fun i =>
    match insts.getD i Inst.PrintCell with
    | Inst.JmpFwd n => some (offBefore insts i, n)
    | _ => none

/-- The pass-one invariant after processing the first `k` instructions. -/
def P1Inv (insts : List Inst) (k : Nat) (s : P1) : Prop :=
  s.mem.data = dummyJoin insts k ∧
  s.mem.pos = offBefore insts k ∧
  (∀ n : Nat, s.addr.lookup n =
    if n < k ∧ isJmp (insts.getD n Inst.PrintCell) = true
    then some (offAfter insts n) else none) ∧
  s.fwd = fwdSpec insts k

theorem dummyJoin_length (insts : List Inst) (k : Nat) :
    (dummyJoin insts k).length = offBefore insts k := by
  unfold dummyJoin offBefore
  rw [List.length_flatten, List.map_map]
  congr 1
  refine List.map_congr_left ?_
  intro a _
  exact encD_length insts a

theorem dummyJoin_succ (insts : List Inst) (k : Nat) :
    dummyJoin insts (k + 1) = dummyJoin insts k ++ encD insts k := by
  unfold dummyJoin
  rw [List.range_succ, List.map_append, List.flatten_append]
  simp

theorem fwdSpec_succ (insts : List Inst) (k : Nat) :
    fwdSpec insts (k + 1) = fwdSpec insts k ++
      (match insts.getD k Inst.PrintCell with
       | Inst.JmpFwd n => [(offBefore insts k, n)]
       | _ => []) := by
  unfold fwdSpec
  rw [List.range_succ, List.filterMap_append]
  congr 1
  cases hd : insts.getD k Inst.PrintCell <;>
    simp only [List.filterMap_cons, List.filterMap_nil, hd]

theorem emit_inc_eq (mem : Cursor) (a : Nat) :
    emit_inc mem a = mem.write
      (if a = 1 then [0x48, 0xff, 0xc6] else [0x48, 0x81, 0xc6] ++ le32 (a % 4294967296)) := by
  unfold emit_inc
  by_cases h : a = 1
  · rw [if_pos h, if_pos h]
  · rw [if_neg h, if_neg h, Cursor.write_write]

theorem emit_dec_eq (mem : Cursor) (a : Nat) :
    emit_dec mem a = mem.write
      (if a = 1 then [0x48, 0xff, 0xce] else [0x48, 0x81, 0xee] ++ le32 (a % 4294967296)) := by
  unfold emit_dec
  by_cases h : a = 1
  · rw [if_pos h, if_pos h]
  · rw [if_neg h, if_neg h, Cursor.write_write]

theorem emit_inc_val_eq (mem : Cursor) (a : Nat) :
    emit_inc_val mem a = mem.write
      (if a = 1 then [0xfe, 0x06] else [0x80, 0x06, a % 256]) := by
  unfold emit_inc_val
  by_cases h : a = 1
  · rw [if_pos h, if_pos h]
  · rw [if_neg h, if_neg h]

theorem emit_dec_val_eq (mem : Cursor) (a : Nat) :
    emit_dec_val mem a = mem.write
      (if a = 1 then [0xfe, 0x0e] else [0x80, 0x2e, a % 256]) := by
  unfold emit_dec_val
  by_cases h : a = 1
  · rw [if_pos h, if_pos h]
  · rw [if_neg h, if_neg h]

theorem emit_jmp_fwd_eq (mem : Cursor) (offset : Nat) :
    emit_jmp_fwd mem offset = mem.write
      ([0x80, 0x3e, 0x00, 0x0f, 0x84] ++ le32i ((offset : Int) - 9)) := by
  unfold emit_jmp_fwd
  rw [Cursor.write_write]

theorem emit_jmp_back_eq (mem : Cursor) (offset : Int) :
    emit_jmp_back mem offset = mem.write
      ([0x80, 0x3e, 0x00, 0x0f, 0x85] ++ le32i (offset - 9)) := by
  unfold emit_jmp_back
  rw [Cursor.write_write]

theorem addr_unchanged (insts : List Inst) (k : Nat) (addr : List (Nat × Nat))
    (ha : ∀ n : Nat, addr.lookup n =
      if n < k ∧ isJmp (insts.getD n Inst.PrintCell) = true
      then some (offAfter insts n) else none)
    (hjk : isJmp (insts.getD k Inst.PrintCell) = false) :
    ∀ n : Nat, addr.lookup n =
      if n < k + 1 ∧ isJmp (insts.getD n Inst.PrintCell) = true
      then some (offAfter insts n) else none := by
  intro n
  rw [ha n]
  by_cases hnk : n = k
  · subst hnk
    rw [if_neg (fun h => absurd h.1 (Nat.lt_irrefl n)),
      if_neg (fun h => by rw [hjk] at h; cases h.2)]
  · have hiff : (n < k ∧ isJmp (insts.getD n Inst.PrintCell) = true) ↔
        (n < k + 1 ∧ isJmp (insts.getD n Inst.PrintCell) = true) := by
      constructor
      · rintro ⟨hh1, hh2⟩
        exact ⟨by omega, hh2⟩
      · rintro ⟨hh1, hh2⟩
        exact ⟨by omega, hh2⟩
    rw [if_congr hiff rfl rfl]

theorem addr_insert (insts : List Inst) (k : Nat) (addr : List (Nat × Nat))
    (ha : ∀ n : Nat, addr.lookup n =
      if n < k ∧ isJmp (insts.getD n Inst.PrintCell) = true
      then some (offAfter insts n) else none)
    (hjk : isJmp (insts.getD k Inst.PrintCell) = true) :
    ∀ n : Nat, (((k, offAfter insts k) :: addr).lookup n) =
      if n < k + 1 ∧ isJmp (insts.getD n Inst.PrintCell) = true
      then some (offAfter insts n) else none := by
  intro n
  rw [List.lookup_cons]
  by_cases hnk : n = k
  · subst hnk
    have hbeq : (n == n) = true := by simp
    rw [hbeq]
    rw [if_pos ⟨by omega, hjk⟩]
  · have hbeq : (n == k) = false := by
      simp [hnk]
    rw [hbeq]
    have hiff : (n < k ∧ isJmp (insts.getD n Inst.PrintCell) = true) ↔
        (n < k + 1 ∧ isJmp (insts.getD n Inst.PrintCell) = true) := by
      constructor
      · rintro ⟨hh1, hh2⟩
        exact ⟨by omega, hh2⟩
      · rintro ⟨hh1, hh2⟩
        exact ⟨by omega, hh2⟩
    rw [ha n, if_congr hiff rfl rfl]

theorem p1mem_step (insts : List Inst) (k : Nat) (s : P1)
    (hd1 : s.mem.data = dummyJoin insts k) (hp1 : s.mem.pos = offBefore insts k)
    (b : List Nat) (hb : b = encD insts k) :
    (s.mem.write b).data = dummyJoin insts (k + 1) ∧
    (s.mem.write b).pos = offBefore insts (k + 1) := by
  have hpos : s.mem.pos = s.mem.data.length := by
    rw [hd1, hp1, dummyJoin_length]
  rw [Cursor.write_append s.mem b hpos]
  constructor
  · dsimp only
    rw [hd1, hb, dummyJoin_succ]
  · dsimp only
    rw [hd1, dummyJoin_length, hb, encD_length, offBefore_succ]

theorem p1step_inv (insts : List Inst) (hwf : wfCheck insts = true) (k : Nat)
    (hk : k < insts.length) (s : P1) (hinv : P1Inv insts k s) :
    P1Inv insts (k + 1) (p1step s (k, insts.getD k Inst.PrintCell)) := by
  obtain ⟨hd1, hp1, ha1, hf1⟩ := hinv
  cases hins : insts.getD k Inst.PrintCell with
  | IncPtr a =>
      unfold P1Inv
      dsimp only [p1step]
      have hb : (if a = 1 then [0x48, 0xff, 0xc6]
          else [0x48, 0x81, 0xc6] ++ le32 (a % 4294967296)) = encD insts k := by
        unfold encD
        rw [hins]
      refine ⟨?_, ?_, addr_unchanged insts k s.addr ha1 (by rw [hins]; rfl), ?_⟩
      · rw [emit_inc_eq]
        exact (p1mem_step insts k s hd1 hp1 _ hb).1
      · rw [emit_inc_eq]
        exact (p1mem_step insts k s hd1 hp1 _ hb).2
      · rw [hf1, fwdSpec_succ, hins]
        simp
  | DecPtr a =>
      unfold P1Inv
      dsimp only [p1step]
      have hb : (if a = 1 then [0x48, 0xff, 0xce]
          else [0x48, 0x81, 0xee] ++ le32 (a % 4294967296)) = encD insts k := by
        unfold encD
        rw [hins]
      refine ⟨?_, ?_, addr_unchanged insts k s.addr ha1 (by rw [hins]; rfl), ?_⟩
      · rw [emit_dec_eq]
        exact (p1mem_step insts k s hd1 hp1 _ hb).1
      · rw [emit_dec_eq]
        exact (p1mem_step insts k s hd1 hp1 _ hb).2
      · rw [hf1, fwdSpec_succ, hins]
        simp
  | IncVal a =>
      unfold P1Inv
      dsimp only [p1step]
      have hb : (if a = 1 then [0xfe, 0x06] else [0x80, 0x06, a % 256]) = encD insts k := by
        unfold encD
        rw [hins]
      refine ⟨?_, ?_, addr_unchanged insts k s.addr ha1 (by rw [hins]; rfl), ?_⟩
      · rw [emit_inc_val_eq]
        exact (p1mem_step insts k s hd1 hp1 _ hb).1
      · rw [emit_inc_val_eq]
        exact (p1mem_step insts k s hd1 hp1 _ hb).2
      · rw [hf1, fwdSpec_succ, hins]
        simp
  | DecVal a =>
      unfold P1Inv
      dsimp only [p1step]
      have hb : (if a = 1 then [0xfe, 0x0e] else [0x80, 0x2e, a % 256]) = encD insts k := by
        unfold encD
        rw [hins]
      refine ⟨?_, ?_, addr_unchanged insts k s.addr ha1 (by rw [hins]; rfl), ?_⟩
      · rw [emit_dec_val_eq]
        exact (p1mem_step insts k s hd1 hp1 _ hb).1
      · rw [emit_dec_val_eq]
        exact (p1mem_step insts k s hd1 hp1 _ hb).2
      · rw [hf1, fwdSpec_succ, hins]
        simp
  | PrintCell =>
      unfold P1Inv
      dsimp only [p1step]
      unfold emit_print
      have hb : ([0xb8, 0x01, 0x00, 0x00, 0x00, 0xbf, 0x01, 0x00, 0x00, 0x00,
          0xba, 0x01, 0x00, 0x00, 0x00, 0x0f, 0x05] : List Nat) = encD insts k := by
        unfold encD
        rw [hins]
      refine ⟨?_, ?_, addr_unchanged insts k s.addr ha1 (by rw [hins]; rfl), ?_⟩
      · exact (p1mem_step insts k s hd1 hp1 _ hb).1
      · exact (p1mem_step insts k s hd1 hp1 _ hb).2
      · rw [hf1, fwdSpec_succ, hins]
        simp
  | ReadChar =>
      unfold P1Inv
      dsimp only [p1step]
      unfold emit_read
      have hb : ([0x48, 0x31, 0xc0, 0x48, 0x31, 0xff,
          0xba, 0x01, 0x00, 0x00, 0x00, 0x0f, 0x05] : List Nat) = encD insts k := by
        unfold encD
        rw [hins]
      refine ⟨?_, ?_, addr_unchanged insts k s.addr ha1 (by rw [hins]; rfl), ?_⟩
      · exact (p1mem_step insts k s hd1 hp1 _ hb).1
      · exact (p1mem_step insts k s hd1 hp1 _ hb).2
      · rw [hf1, fwdSpec_succ, hins]
        simp
  | JmpFwd n =>
      unfold P1Inv
      dsimp only [p1step]
      have hb : ([0x80, 0x3e, 0x00, 0x0f, 0x84]
          ++ le32i (((0x41414141 : Nat) : Int) - 9)) = encD insts k := by
        unfold encD
        rw [hins]
        norm_num
      refine ⟨?_, ?_, ?_, ?_⟩
      · rw [emit_jmp_fwd_eq]
        exact (p1mem_step insts k s hd1 hp1 _ hb).1
      · rw [emit_jmp_fwd_eq]
        exact (p1mem_step insts k s hd1 hp1 _ hb).2
      · have hpos2 : (emit_jmp_fwd s.mem 0x41414141).pos = offAfter insts k := by
          rw [emit_jmp_fwd_eq]
          exact (p1mem_step insts k s hd1 hp1 _ hb).2
        rw [hpos2]
        exact addr_insert insts k s.addr ha1 (by rw [hins]; rfl)
      · rw [hf1, hp1, fwdSpec_succ, hins]
  | JmpBack n =>
      have hgk : insts[k]? = some (Inst.JmpBack n) := by
        rw [List.getElem?_eq_getElem hk]
        exact congrArg some ((List.getD_eq_getElem insts Inst.PrintCell hk).symm.trans hins)
      obtain ⟨hnk, hfwd⟩ := wfCheck_back hwf hgk
      have hjn : isJmp (insts.getD n Inst.PrintCell) = true := by
        rw [getD_eq_of_getElem? hfwd]
        rfl
      have hlook : s.addr.lookup n = some (offAfter insts n) := by
        rw [ha1 n, if_pos ⟨hnk, hjn⟩]
      unfold P1Inv
      dsimp only [p1step]
      have hb : ([0x80, 0x3e, 0x00, 0x0f, 0x85]
          ++ le32i (-((s.mem.pos : Int) - (((s.addr.lookup n).getD 0 : Nat) : Int)) - 9))
          = encD insts k := by
        rw [hlook, hp1, Option.getD_some]
        unfold encD
        rw [hins]
      refine ⟨?_, ?_, ?_, ?_⟩
      · rw [emit_jmp_back_eq]
        exact (p1mem_step insts k s hd1 hp1 _ hb).1
      · rw [emit_jmp_back_eq]
        exact (p1mem_step insts k s hd1 hp1 _ hb).2
      · have hpos2 : (emit_jmp_back s.mem
            (-((s.mem.pos : Int) - (((s.addr.lookup n).getD 0 : Nat) : Int)))).pos
            = offAfter insts k := by
          rw [emit_jmp_back_eq]
          exact (p1mem_step insts k s hd1 hp1 _ hb).2
        rw [hpos2]
        exact addr_insert insts k s.addr ha1 (by rw [hins]; rfl)
      · rw [hf1, fwdSpec_succ, hins]
        simp

theorem p1_fold (insts : List Inst) (hwf : wfCheck insts = true) :
    ∀ (l : List Inst) (k : Nat), insts.drop k = l → k ≤ insts.length →
    ∀ s : P1, P1Inv insts k s →
    P1Inv insts insts.length ((l.enumFrom k).foldl p1step s) := by
  intro l
  induction l with
  | nil =>
      intro k hdrop hk s hinv
      have hk2 : insts.length ≤ k := List.drop_eq_nil_iff.mp hdrop
      have hke : k = insts.length := by omega
      subst hke
      exact hinv
  | cons a l ih =>
      intro k hdrop hk s hinv
      have hk2 : k < insts.length := by
        by_contra hge
        rw [List.drop_eq_nil_of_le (by omega)] at hdrop
        cases hdrop
      have hget : insts[k]? = some a := by
        have h0 := List.getElem?_drop insts k 0
        rw [hdrop] at h0
        simpa using h0.symm
      have ha : insts.getD k Inst.PrintCell = a := getD_eq_of_getElem? hget
      have hdrop2 : insts.drop (k + 1) = l := by
        have h1 : insts.drop (k + 1) = (insts.drop k).drop 1 := by
          rw [List.drop_drop]
        rw [h1, hdrop]
        rfl
      rw [List.enumFrom_cons, List.foldl_cons]
      have hstep := p1step_inv insts hwf k hk2 s hinv
      rw [ha] at hstep
      exact ih (k + 1) hdrop2 (by omega) _ hstep

theorem p1run_spec (insts : List Inst) (hwf : wfCheck insts = true) :
    P1Inv insts insts.length (p1run insts) := by
  have h0 : P1Inv insts 0 ⟨⟨[], 0⟩, [], []⟩ := by
    refine ⟨rfl, rfl, ?_, rfl⟩
    intro n
    rw [if_neg (fun h => absurd h.1 (Nat.not_lt_zero n))]
    rfl
  exact p1_fold insts hwf insts 0 rfl (by omega) ⟨⟨[], 0⟩, [], []⟩ h0

/-- The buffer contents with the first `c` forward jumps already patched. -/
def mixJoin (insts : List Inst) (c : Nat) : List Nat :=
  ((List.range insts.length).map
    (fun i => if i < c then encF insts i else encD insts i)).flatten

/-- The final buffer contents (before the trailing return byte). -/
def finalJoin (insts : List Inst) : List Nat :=
  ((List.range insts.length).map (encF insts)).flatten

/-- The tail of the recorded forward-jump list from instruction `c` on. -/
def fwdFrom (insts : List Inst) (c : Nat) : List (Nat × Nat) :=
  (List.range' c (insts.length - c)).filterMap fun i =>
    match insts.getD i Inst.PrintCell with
    | Inst.JmpFwd n => some (offBefore insts i, n)
    | _ => none

theorem fwdSpec_eq_fwdFrom (insts : List Inst) :
    fwdSpec insts insts.length = fwdFrom insts 0 := by
  unfold fwdSpec fwdFrom
  rw [List.range_eq_range', Nat.sub_zero]

theorem dummyJoin_eq_mixJoin_zero (insts : List Inst) :
    dummyJoin insts insts.length = mixJoin insts 0 := by
  unfold dummyJoin mixJoin
  congr 1

theorem mixJoin_full (insts : List Inst) :
    mixJoin insts insts.length = finalJoin insts := by
  unfold mixJoin finalJoin
  congr 1
  refine List.map_congr_left ?_
  intro a ha
  rw [if_pos (List.mem_range.mp ha)]

theorem encF_eq_encD (insts : List Inst) (c : Nat)
    (h : ∀ n, insts.getD c Inst.PrintCell ≠ Inst.JmpFwd n) :
    encF insts c = encD insts c := by
  unfold encF
  cases hd : insts.getD c Inst.PrintCell with
  | JmpFwd n => exact absurd hd (h n)
  | IncPtr a => rfl
  | DecPtr a => rfl
  | IncVal a => rfl
  | DecVal a => rfl
  | PrintCell => rfl
  | ReadChar => rfl
  | JmpBack n => rfl

theorem fwdFrom_step (insts : List Inst) (c : Nat) (hclt : c < insts.length) :
    fwdFrom insts c = (match insts.getD c Inst.PrintCell with
      | Inst.JmpFwd n => [(offBefore insts c, n)]
      | _ => []) ++ fwdFrom insts (c + 1) := by
  unfold fwdFrom
  have hm : insts.length - c = (insts.length - (c + 1)) + 1 := by omega
  rw [hm, List.range'_succ, List.filterMap_cons]
  cases hd : insts.getD c Inst.PrintCell <;> simp only [hd] <;> rfl

theorem range_split (len c : Nat) (hclt : c < len) :
    List.range len = List.range c ++ c :: List.range' (c + 1) (len - (c + 1)) := by
  have h2 := List.range'_append_1 0 c (len - c)
  rw [show 0 + c = c by omega, show len - c + c = len by omega] at h2
  have h3 : List.range' c (len - c) = c :: List.range' (c + 1) (len - (c + 1)) := by
    rw [show len - c = (len - (c + 1)) + 1 by omega, List.range'_succ]
  rw [List.range_eq_range', ← h2, h3, List.range_eq_range']

theorem mixJoin_decompD (insts : List Inst) (c : Nat) (hclt : c < insts.length) :
    mixJoin insts c = ((List.range c).map (encF insts)).flatten ++ (encD insts c
      ++ ((List.range' (c + 1) (insts.length - (c + 1))).map (encD insts)).flatten) := by
  unfold mixJoin
  rw [range_split insts.length c hclt, List.map_append, List.map_cons,
    List.flatten_append, List.flatten_cons]
  rw [if_neg (Nat.lt_irrefl c)]
  congr 1
  · congr 1
    refine List.map_congr_left ?_
    intro a ha
    rw [if_pos (List.mem_range.mp ha)]
  · congr 2
    refine List.map_congr_left ?_
    intro a ha
    obtain ⟨i, hi, hai⟩ := List.mem_range'.mp ha
    rw [if_neg (by omega)]

theorem mixJoin_decompF (insts : List Inst) (c : Nat) (hclt : c < insts.length) :
    mixJoin insts (c + 1) = ((List.range c).map (encF insts)).flatten ++ (encF insts c
      ++ ((List.range' (c + 1) (insts.length - (c + 1))).map (encD insts)).flatten) := by
  unfold mixJoin
  rw [range_split insts.length c hclt, List.map_append, List.map_cons,
    List.flatten_append, List.flatten_cons]
  rw [if_pos (Nat.lt_succ_self c)]
  congr 1
  · congr 1
    refine List.map_congr_left ?_
    intro a ha
    rw [if_pos (by have := List.mem_range.mp ha; omega)]
  · congr 2
    refine List.map_congr_left ?_
    intro a ha
    obtain ⟨i, hi, hai⟩ := List.mem_range'.mp ha
    rw [if_neg (by omega)]

theorem mixJoinA_length (insts : List Inst) (c : Nat) :
    (((List.range c).map (encF insts)).flatten).length = offBefore insts c := by
  rw [List.length_flatten, List.map_map]
  unfold offBefore
  congr 1
  refine List.map_congr_left ?_
  intro a _
  exact encF_length insts a

theorem writeAt_replace (A d B f : List Nat) (hf : f.length = d.length) :
    writeAt (A ++ (d ++ B)) A.length f = A ++ (f ++ B) := by
  have hpad : List.replicate (A.length - (A ++ (d ++ B)).length) (0 : Nat) = [] := by
    have h0 : A.length - (A ++ (d ++ B)).length = 0 := by simp
    rw [h0, List.replicate_zero]
  simp only [writeAt]
  rw [hpad, List.append_nil, List.take_left]
  have hdrop : (A ++ (d ++ B)).drop (A.length + f.length) = B := by
    rw [hf]
    have h1 := @List.drop_append _ A (d ++ B) d.length
    rw [h1, List.drop_left]
  rw [hdrop, List.append_assoc]

theorem pass2_fold (insts : List Inst) (hwf : wfCheck insts = true)
    (addr : List (Nat × Nat))
    (haddr : ∀ n : Nat, addr.lookup n =
      if n < insts.length ∧ isJmp (insts.getD n Inst.PrintCell) = true
      then some (offAfter insts n) else none) :
    ∀ (m c : Nat), c + m = insts.length →
    ∀ mem : Cursor, mem.data = mixJoin insts c →
    (pass2 addr mem (fwdFrom insts c)).data = mixJoin insts insts.length := by
  intro m
  induction m with
  | zero =>
      intro c hc mem hmem
      have hce : c = insts.length := by omega
      have hf : fwdFrom insts c = [] := by
        unfold fwdFrom
        rw [hce, Nat.sub_self]
        rfl
      rw [hf]
      show mem.data = mixJoin insts insts.length
      rw [hmem, hce]
  | succ m ih =>
      intro c hc mem hmem
      have hclt : c < insts.length := by omega
      rw [fwdFrom_step insts c hclt]
      cases hins : insts.getD c Inst.PrintCell with
      | JmpFwd n =>
          have hgc : insts[c]? = some (Inst.JmpFwd n) := by
            rw [List.getElem?_eq_getElem hclt]
            exact congrArg some
              ((List.getD_eq_getElem insts Inst.PrintCell hclt).symm.trans hins)
          obtain ⟨hcn, hback⟩ := wfCheck_fwd hwf hgc
          have hnlen : n < insts.length := getElem?_lt_length hback
          have hjn : isJmp (insts.getD n Inst.PrintCell) = true := by
            rw [getD_eq_of_getElem? hback]
            rfl
          have hlook : addr.lookup n = some (offAfter insts n) := by
            rw [haddr n, if_pos ⟨hnlen, hjn⟩]
          show (pass2 addr (p2step addr mem (offBefore insts c, n)) (fwdFrom insts (c + 1))).data
              = mixJoin insts insts.length
          refine ih (c + 1) (by omega) _ ?_
          unfold p2step
          dsimp only
          rw [emit_jmp_fwd_eq, hlook, Option.getD_some]
          have hbytes : ([0x80, 0x3e, 0x00, 0x0f, 0x84]
              ++ le32i (((offAfter insts n - offBefore insts c : Nat) : Int) - 9))
              = encF insts c := by
            unfold encF
            rw [hins]
          show writeAt (mem.data) (offBefore insts c)
              ([0x80, 0x3e, 0x00, 0x0f, 0x84]
                ++ le32i (((offAfter insts n - offBefore insts c : Nat) : Int) - 9))
              = mixJoin insts (c + 1)
          rw [hbytes, hmem, mixJoin_decompD insts c hclt, mixJoin_decompF insts c hclt,
            ← mixJoinA_length insts c]
          exact writeAt_replace _ _ _ _ (by rw [encF_length, encD_length])
      | IncPtr a =>
          have heq : mixJoin insts c = mixJoin insts (c + 1) := by
            rw [mixJoin_decompD insts c hclt, mixJoin_decompF insts c hclt,
              encF_eq_encD insts c (by rw [hins]; intro n h; cases h)]
          exact ih (c + 1) (by omega) mem (by rw [hmem, heq])
      | DecPtr a =>
          have heq : mixJoin insts c = mixJoin insts (c + 1) := by
            rw [mixJoin_decompD insts c hclt, mixJoin_decompF insts c hclt,
              encF_eq_encD insts c (by rw [hins]; intro n h; cases h)]
          exact ih (c + 1) (by omega) mem (by rw [hmem, heq])
      | IncVal a =>
          have heq : mixJoin insts c = mixJoin insts (c + 1) := by
            rw [mixJoin_decompD insts c hclt, mixJoin_decompF insts c hclt,
              encF_eq_encD insts c (by rw [hins]; intro n h; cases h)]
          exact ih (c + 1) (by omega) mem (by rw [hmem, heq])
      | DecVal a =>
          have heq : mixJoin insts c = mixJoin insts (c + 1) := by
            rw [mixJoin_decompD insts c hclt, mixJoin_decompF insts c hclt,
              encF_eq_encD insts c (by rw [hins]; intro n h; cases h)]
          exact ih (c + 1) (by omega) mem (by rw [hmem, heq])
      | PrintCell =>
          have heq : mixJoin insts c = mixJoin insts (c + 1) := by
            rw [mixJoin_decompD insts c hclt, mixJoin_decompF insts c hclt,
              encF_eq_encD insts c (by rw [hins]; intro n h; cases h)]
          exact ih (c + 1) (by omega) mem (by rw [hmem, heq])
      | ReadChar =>
          have heq : mixJoin insts c = mixJoin insts (c + 1) := by
            rw [mixJoin_decompD insts c hclt, mixJoin_decompF insts c hclt,
              encF_eq_encD insts c (by rw [hins]; intro n h; cases h)]
          exact ih (c + 1) (by omega) mem (by rw [hmem, heq])
      | JmpBack n =>
          have heq : mixJoin insts c = mixJoin insts (c + 1) := by
            rw [mixJoin_decompD insts c hclt, mixJoin_decompF insts c hclt,
              encF_eq_encD insts c (by rw [hins]; intro n2 h; cases h)]
          exact ih (c + 1) (by omega) mem (by rw [hmem, heq])

/-- The two-pass code generator, summarized: under well-formed jump
targets the output is the concatenation of the per-instruction final
encodings followed by the single `ret` byte. -/
theorem compile_layout (insts : List Inst) (hwf : wfCheck insts = true) :
    compile insts = finalJoin insts ++ [0xc3] := by
  obtain ⟨hd1, hp1, ha1, hf1⟩ := p1run_spec insts hwf
  have hdata : (pass2 (p1run insts).addr (p1run insts).mem (p1run insts).fwd).data
      = mixJoin insts insts.length := by
    rw [hf1, fwdSpec_eq_fwdFrom]
    exact pass2_fold insts hwf (p1run insts).addr ha1 insts.length 0 (by omega)
      (p1run insts).mem (by rw [hd1, dummyJoin_eq_mixJoin_zero])
  show (emit_ret { pass2 (p1run insts).addr (p1run insts).mem (p1run insts).fwd with
      pos := (pass2 (p1run insts).addr (p1run insts).mem (p1run insts).fwd).data.length }).data
      = finalJoin insts ++ [0xc3]
  unfold emit_ret
  rw [Cursor.write_append _ _ rfl]
  dsimp only
  rw [hdata, mixJoin_full]

/-- A slice of `len` bytes of a code buffer starting at `off`. -/
def byteSeg (l : List Nat) (off len : Nat) : List Nat :=
  (l.drop off).take len

theorem byteSeg_of_decomp (A x B : List Nat) :
    byteSeg (A ++ (x ++ B)) A.length x.length = x := by
  unfold byteSeg
  rw [List.drop_left, List.take_left]

theorem finalJoin_decomp (insts : List Inst) (i : Nat) (hi : i < insts.length) :
    finalJoin insts = ((List.range i).map (encF insts)).flatten ++ (encF insts i
      ++ ((List.range' (i + 1) (insts.length - (i + 1))).map (encF insts)).flatten) := by
  unfold finalJoin
  rw [range_split insts.length i hi, List.map_append, List.map_cons,
    List.flatten_append, List.flatten_cons]

theorem compile_segment (insts : List Inst) (hwf : wfCheck insts = true)
    (i : Nat) (hi : i < insts.length) :
    byteSeg (compile insts) (offBefore insts i) (instSize (insts.getD i Inst.PrintCell))
      = encF insts i := by
  rw [compile_layout insts hwf, finalJoin_decomp insts i hi]
  simp only [List.append_assoc]
  rw [← encF_length insts i, ← mixJoinA_length insts i]
  exact byteSeg_of_decomp _ _ _

theorem p1_segment (insts : List Inst) (hwf : wfCheck insts = true)
    (i : Nat) (hi : i < insts.length) :
    byteSeg (p1run insts).mem.data (offBefore insts i) (instSize (insts.getD i Inst.PrintCell))
      = encD insts i := by
  obtain ⟨hd1, _, _, _⟩ := p1run_spec insts hwf
  rw [hd1]
  have hdec : dummyJoin insts insts.length
      = dummyJoin insts i ++ (encD insts i
        ++ ((List.range' (i + 1) (insts.length - (i + 1))).map (encD insts)).flatten) := by
    unfold dummyJoin
    rw [range_split insts.length i hi, List.map_append, List.map_cons,
      List.flatten_append, List.flatten_cons]
  rw [hdec, ← encD_length insts i, ← dummyJoin_length insts i]
  exact byteSeg_of_decomp _ _ _

theorem write_from_empty (b : List Nat) : (Cursor.write ⟨[], 0⟩ b).data = b := by
  show writeAt [] 0 b = b
  simp [writeAt]

/-- C3: for every `JmpFwd` at index `i` with target `n`, pass one emits
the fixed 9-byte placeholder block (with dummy displacement `0x41414141 - 9`)
at the instruction's byte offset and records that offset with the logical
target index in `fwd_jumps`; `addr_mapping` records the end-offset of the
paired `JmpBack` at index `n`; and in the final buffer pass two has
overwritten the placeholder with the forward-jump encoding of the
displacement `addr_mapping[n] - placeholder_site`. -/
theorem C3_forward_jump_patching (insts : List Inst) (hwf : wfCheck insts = true)
    (i n : Nat) (hg : insts[i]? = some (Inst.JmpFwd n)) :
    ((offBefore insts i, n) ∈ (p1run insts).fwd) ∧
    byteSeg (p1run insts).mem.data (offBefore insts i) 9
      = [0x80, 0x3e, 0x00, 0x0f, 0x84] ++ le32i ((0x41414141 : Int) - 9) ∧
    insts[n]? = some (Inst.JmpBack i) ∧
    (p1run insts).addr.lookup n = some (offAfter insts n) ∧
    byteSeg (compile insts) (offBefore insts i) 9
      = (emit_jmp_fwd ⟨[], 0⟩ (offAfter insts n - offBefore insts i)).data := by
  have hi : i < insts.length := getElem?_lt_length hg
  have hins : insts.getD i Inst.PrintCell = Inst.JmpFwd n := getD_eq_of_getElem? hg
  obtain ⟨hin, hback⟩ := wfCheck_fwd hwf hg
  have hnlen : n < insts.length := getElem?_lt_length hback
  have hjn : isJmp (insts.getD n Inst.PrintCell) = true := by
    rw [getD_eq_of_getElem? hback]
    rfl
  obtain ⟨hd1, hp1, ha1, hf1⟩ := p1run_spec insts hwf
  have hsz : instSize (insts.getD i Inst.PrintCell) = 9 := by
    rw [hins]
    rfl
  refine ⟨?_, ?_, hback, ?_, ?_⟩
  · rw [hf1]
    unfold fwdSpec
    refine List.mem_filterMap.mpr ⟨i, List.mem_range.mpr hi, ?_⟩
    rw [hins]
  · have h2 := p1_segment insts hwf i hi
    rw [hsz] at h2
    rw [h2]
    unfold encD
    rw [hins]
  · rw [ha1 n, if_pos ⟨hnlen, hjn⟩]
  · have h2 := compile_segment insts hwf i hi
    rw [hsz] at h2
    rw [h2, emit_jmp_fwd_eq, write_from_empty]
    unfold encF
    rw [hins]

theorem C3_forward_jump_patching_witness :
    (((0 : Nat), (1 : Nat)) ∈ (p1run [Inst.JmpFwd 1, Inst.JmpBack 0]).fwd) ∧
    byteSeg (p1run [Inst.JmpFwd 1, Inst.JmpBack 0]).mem.data 0 9
      = [0x80, 0x3e, 0x00, 0x0f, 0x84] ++ le32i ((0x41414141 : Int) - 9) ∧
    [Inst.JmpFwd 1, Inst.JmpBack 0][1]? = some (Inst.JmpBack 0) ∧
    (p1run [Inst.JmpFwd 1, Inst.JmpBack 0]).addr.lookup 1 = some 18 ∧
    byteSeg (compile [Inst.JmpFwd 1, Inst.JmpBack 0]) 0 9
      = (emit_jmp_fwd ⟨[], 0⟩ (18 - 0)).data :=
  C3_forward_jump_patching [Inst.JmpFwd 1, Inst.JmpBack 0] (by decide) 0 1 rfl

/-- C4 (amended): the conditional branch emitted for each `JmpBack` is
written in full during pass one (pass two leaves it untouched), and its
displacement bytes encode `(end-offset of the matching JmpFwd) -
(end-offset of the JmpBack itself)`: taken when the cell is nonzero, the
branch lands on the first byte after the matching `JmpFwd`'s emitted
block - the start of the loop body - not on the start of the `JmpFwd`'s
conditional test. -/
theorem C4_backward_jump (insts : List Inst) (hwf : wfCheck insts = true)
    (i n : Nat) (hg : insts[i]? = some (Inst.JmpBack n)) :
    insts[n]? = some (Inst.JmpFwd i) ∧
    byteSeg (p1run insts).mem.data (offBefore insts i) 9
      = byteSeg (compile insts) (offBefore insts i) 9 ∧
    byteSeg (compile insts) (offBefore insts i) 9
      = (emit_jmp_back ⟨[], 0⟩
          (-((offBefore insts i : Int) - (offAfter insts n : Int)))).data ∧
    byteSeg (compile insts) (offBefore insts i) 9
      = [0x80, 0x3e, 0x00, 0x0f, 0x85]
        ++ le32i ((offAfter insts n : Int) - (offAfter insts i : Int)) := by
  have hi : i < insts.length := getElem?_lt_length hg
  have hins : insts.getD i Inst.PrintCell = Inst.JmpBack n := getD_eq_of_getElem? hg
  obtain ⟨hni, hfwd⟩ := wfCheck_back hwf hg
  have hsz : instSize (insts.getD i Inst.PrintCell) = 9 := by
    rw [hins]
    rfl
  have hseg := compile_segment insts hwf i hi
  rw [hsz] at hseg
  have hFD : encF insts i = encD insts i := by
    unfold encF
    rw [hins]
  have hAi : offAfter insts i = offBefore insts i + 9 := by
    unfold offAfter
    rw [offBefore_succ, hins]
    rfl
  refine ⟨hfwd, ?_, ?_, ?_⟩
  · have h2 := p1_segment insts hwf i hi
    rw [hsz] at h2
    rw [h2, hseg, hFD]
  · rw [hseg, hFD, emit_jmp_back_eq, write_from_empty]
    unfold encD
    rw [hins]
  · rw [hseg, hFD]
    unfold encD
    rw [hins]
    have hval : (-((offBefore insts i : Int) - (offAfter insts n : Int)) - 9)
        = (offAfter insts n : Int) - (offAfter insts i : Int) := by
      rw [hAi]
      push_cast
      ring
    dsimp only
    rw [hval]

theorem C4_backward_jump_witness :
    [Inst.JmpFwd 1, Inst.JmpBack 0][0]? = some (Inst.JmpFwd 1) ∧
    byteSeg (p1run [Inst.JmpFwd 1, Inst.JmpBack 0]).mem.data 9 9
      = byteSeg (compile [Inst.JmpFwd 1, Inst.JmpBack 0]) 9 9 ∧
    byteSeg (compile [Inst.JmpFwd 1, Inst.JmpBack 0]) 9 9
      = (emit_jmp_back ⟨[], 0⟩ (-((9 : Int) - (9 : Int)))).data ∧
    byteSeg (compile [Inst.JmpFwd 1, Inst.JmpBack 0]) 9 9
      = [0x80, 0x3e, 0x00, 0x0f, 0x85] ++ le32i ((9 : Int) - (18 : Int)) :=
  C4_backward_jump [Inst.JmpFwd 1, Inst.JmpBack 0] (by decide) 1 0 rfl

/-- Signed little-endian decoding of the 4 displacement bytes at `p`. -/
def rel32At (code : List Nat) (p : Nat) : Int :=
  let u := code.getD p 0 + 256 * code.getD (p + 1) 0 + 65536 * code.getD (p + 2) 0
    + 16777216 * code.getD (p + 3) 0
  if u < 2147483648 then (u : Int) else (u : Int) - 4294967296

/-- C4 counterexample: for the program `[]` the backward branch (whose
`jne` ends at byte 18, displacement bytes at 14) lands at byte 9, the end
of the matching `JmpFwd`'s code, not at byte 0, the start of that
`JmpFwd`'s emitted conditional test as the claim states. -/
theorem C4_backward_jump_counterexample :
    (18 : Int) + rel32At (compile [Inst.JmpFwd 1, Inst.JmpBack 0]) 14 = 9 ∧
    (18 : Int) + rel32At (compile [Inst.JmpFwd 1, Inst.JmpBack 0]) 14
      ≠ (offBefore [Inst.JmpFwd 1, Inst.JmpBack 0] 0 : Int) :=
  ⟨by decide, by decide⟩

/-- Every successfully built program satisfies the jump-target
well-formedness that the layout theorems assume. -/
theorem buildInsts_wfCheck (src : List Char) (insts : List Inst)
    (h : buildInsts src = .ok insts) : wfCheck insts = true := by
  obtain ⟨st, hsi, hss, hinv⟩ := buildInsts_inv src insts h
  obtain ⟨h1, h2, h3, h4, h5, h6⟩ := hinv
  subst hsi
  unfold wfCheck
  rw [List.all_eq_true]
  intro x hx
  have hxlen : x < st.insts.length := List.mem_range.mp hx
  cases hd : st.insts.getD x Inst.PrintCell with
  | JmpFwd n =>
      have hgx : st.insts[x]? = some (Inst.JmpFwd n) := by
        rw [List.getElem?_eq_getElem hxlen]
        exact congrArg some
          ((List.getD_eq_getElem st.insts Inst.PrintCell hxlen).symm.trans hd)
      rcases h4 x n hgx with ⟨_, hmem⟩ | ⟨hlt, hback⟩
      · rw [hss] at hmem
        simp at hmem
      · simp [hlt, hback]
  | JmpBack n =>
      have hgx : st.insts[x]? = some (Inst.JmpBack n) := by
        rw [List.getElem?_eq_getElem hxlen]
        exact congrArg some
          ((List.getD_eq_getElem st.insts Inst.PrintCell hxlen).symm.trans hd)
      obtain ⟨hlt, hfwd⟩ := h3 x n hgx
      simp [hlt, hfwd]
  | IncPtr a => rfl
  | DecPtr a => rfl
  | IncVal a => rfl
  | DecVal a => rfl
  | PrintCell => rfl
  | ReadChar => rfl
